import Mathlib

/-!
# File-skip n-gram index (`cmd/fileskip/repo_index.go`)

A shallow embedding of the n-gram extractor, the query n-gram derivation, the
per-file key array construction, the conjunctive filter match, the framed
serialization of a blob index and the persistence of an index to a file, followed
by theorems about them. The method `Authors` of
`catalog/resolvers/component_authors.go` is embedded as well.

Conventions of the embedding:

* a Go `string` that is only ever iterated with `for _, ch := range s` is
  represented by the sequence of runes that the loop yields, a `List Char`
  (a Lean `Char` is exactly a Unicode scalar value, which is what `range`
  produces, `U+FFFD` included);
* `uint64` values are natural numbers; every shift is reduced modulo `2 ^ 64`;
* `map[uint64]struct{}` is the list of its distinct keys in insertion order;
  the order in which `range` visits the keys is a parameter;
* `*bitset.BitSet` is the ascending list of the indices that are set;
* an `io.Reader` is the byte sequence it still holds together with the way it
  answers one `Read` call (how many bytes, with or without an error), an
  `io.Writer` the bytes it has accepted together with the way it answers one
  `Write` call;
* goroutines that send on a channel are represented by what each of them sends
  and by the order in which the sends arrive, which is a parameter;
* a function that can panic returns an `Option`, `none` being the panic;
* a Go `error` is an `Option String`, `none` being nil; the answers of the
  operating system to file operations are parameters.
-/

namespace Fileskip

/-! ## Constants -/

/-- Go: `maxFileSize = 1 << 20`. -/
def maxFileSize : Nat := 1 <<< 20

/-- Go: `maximumQueryNgrams = 100`. -/
def maximumQueryNgrams : Nat := 100

/-- Go: `const smallTrigram = 1 << 21`. -/
def smallTrigram : Nat := 1 <<< 21

/-- Size of the `uint64` range. -/
def u64 : Nat := 2 ^ 64

/-- Left shift on `uint64`. -/
def shl64 (x k : Nat) : Nat := (x <<< k) % u64

/-- Go: `var bigramArity = uint64(2) << 62`. -/
def bigramArity : Nat := shl64 2 62

/-- Go: `var trigramArity = uint64(3) << 62`. -/
def trigramArity : Nat := shl64 3 62

/-- Go: `func ngramArity(n uint64) int8`. -/
def ngramArity (n : Nat) : Nat :=
  if (trigramArity &&& n) = trigramArity then 3
  else if (bigramArity &&& n) = bigramArity then 2
  else 1

/-! ## The two set representations used by the extractor -/

/-- Go: `seen[k] = struct{}{}` on a `map[uint64]struct{}`. -/
def mapInsert (m : List Nat) (k : Nat) : List Nat :=
  if k ∈ m then m else m ++ [k]

/-- The ascending list of set indices of a `bitset.BitSet`. -/
abbrev BitSet := List Nat

/-- Go: `b.Set(i)`. -/
def BitSet.set (b : BitSet) (i : Nat) : BitSet :=
  if i ∈ b then b else List.orderedInsert (fun x y => x ≤ y) i b

/-- Go: `b.Count()`. -/
def BitSet.count (b : BitSet) : Nat := b.length

/-- Go: `b.NextSetMany(0, buffer)`, as seen through its effect on `buffer`:
the set indices are written in ascending order from the start of the buffer, as
many as fit, and the rest of the buffer is left untouched. -/
def BitSet.nextSetMany (b : BitSet) (buffer : List Nat) : List Nat :=
  b.take buffer.length ++ buffer.drop b.length

/-! ## The extractor `onGrams` -/

/-- The local variables of `onGrams` that live across loop iterations. -/
structure GramState where
  seen : List Nat
  seenAscii : Option BitSet
  ch1 : Nat
  ch2 : Nat
  i : Nat

/-- The routing statement that `onGrams` repeats for each n-gram value:
`if useBitset && v < smallTrigram { seenAscii.Set(uint(v)) } else { seen[v] = struct{}{} }`. -/
def route (useBitset : Bool) (v : Nat) (s : GramState) : GramState :=
  if useBitset && decide (v < smallTrigram) then
    { s with seenAscii := s.seenAscii.map (fun b => b.set v) }
  else
    { s with seen := mapInsert s.seen v }

/-- Go: `bigram := unigram | (ch1 << 7)`. -/
def bigramOf (unigram ch1 : Nat) : Nat := unigram ||| shl64 ch1 7

/-- Go: `trigram := unigram | (ch1 << 7) | (ch2 << 14)`. -/
def trigramOf (unigram ch1 ch2 : Nat) : Nat := unigram ||| shl64 ch1 7 ||| shl64 ch2 14

/-- One iteration of the `for _, ch0 := range text` loop of `onGrams`. -/
def onGramsStep (useBitset : Bool) (s : GramState) (ch0 : Char) : GramState :=
  let unigram := ch0.toNat
  let s := route useBitset unigram s
  let s := if s.i > 1 then route useBitset (bigramOf unigram s.ch1) s else s
  let s := if s.i > 2 then route useBitset (trigramOf unigram s.ch1 s.ch2) s else s
  { s with ch2 := s.ch1, ch1 := unigram, i := s.i + 1 }

/-- The state of `onGrams` before the loop. -/
def onGramsInit (useBitset : Bool) : GramState :=
  { seen := [], seenAscii := if useBitset then some [] else none, ch1 := 0, ch2 := 0, i := 0 }

/-- The state of `onGrams` after the loop has consumed `text`. -/
def onGramsLoop (useBitset : Bool) (text : List Char) : GramState :=
  text.foldl (onGramsStep useBitset) (onGramsInit useBitset)

/-- Go: `func onGrams(text string, useBitset bool) (map[uint64]struct{}, *bitset.BitSet)`. -/
def onGrams (text : List Char) (useBitset : Bool) : List Nat × Option BitSet :=
  let s := onGramsLoop useBitset text
  (s.seen, s.seenAscii)

/-- All n-grams returned by `onGrams`: the keys of the sparse set followed by the
indices set in the dense bitset (none when the bitset is absent). -/
def ngramUnion (r : List Nat × Option BitSet) : List Nat := r.1 ++ r.2.getD []

/-- The codepoint `p[i]` of a text as a `uint64`. -/
def cp (p : List Char) (i : Nat) : Nat := (p.getD i default).toNat

/-- The reference definition of the n-gram set of a text with codepoints
`p[0..n)`: `p[i]` for `0 ≤ i < n`, `p[i] | (p[i-1] << 7)` for `2 ≤ i < n`, and
`p[i] | (p[i-1] << 7) | (p[i-2] << 14)` for `3 ≤ i < n`. -/
def RefNgram (p : List Char) (v : Nat) : Prop :=
  (∃ i, i < p.length ∧ v = cp p i) ∨
  (∃ i, 2 ≤ i ∧ i < p.length ∧ v = (cp p i ||| (cp p (i - 1) <<< 7))) ∨
  (∃ i, 3 ≤ i ∧ i < p.length ∧
    v = (cp p i ||| (cp p (i - 1) <<< 7) ||| (cp p (i - 2) <<< 14)))

/-! ### Predicates used to reason about the loop of `onGrams` -/

/-- Membership of a value in the sets held by an extractor state. -/
def GramState.Mem (s : GramState) (v : Nat) : Prop :=
  v ∈ s.seen ∨ ∃ d, s.seenAscii = some d ∧ v ∈ d

/-- The dense bitset exists exactly when it was requested. -/
def GramState.Shape (useBitset : Bool) (s : GramState) : Prop :=
  (useBitset = true → ∃ d, s.seenAscii = some d) ∧ (useBitset = false → s.seenAscii = none)

/-- The value that `ch1` (for `k = 1`) or `ch2` (for `k = 2`) holds after the loop
has consumed `l`: the codepoint `k` places from the end, or `0` when there is
none. -/
def back (l : List Char) (k : Nat) : Nat := if k ≤ l.length then cp l (l.length - k) else 0

/-- What the loop of `onGrams` has established once it has consumed `l`. -/
structure LoopInv (useBitset : Bool) (l : List Char) (s : GramState) : Prop where
  idx : s.i = l.length
  prev1 : s.ch1 = back l 1
  prev2 : s.ch2 = back l 2
  shape : s.Shape useBitset
  mem : ∀ v, s.Mem v ↔ RefNgram l v

/-- The keys of the sparse map are distinct and, when the dense bitset is in use,
none of them is below `smallTrigram`. -/
def SeenOK (useBitset : Bool) (seen : List Nat) : Prop :=
  seen.Nodup ∧ (useBitset = true → ∀ v ∈ seen, smallTrigram ≤ v)

/-- Every index set in the dense bitset is below `smallTrigram`. -/
def DenseOK (seenAscii : Option BitSet) : Prop :=
  ∀ d, seenAscii = some d → ∀ v ∈ d, v < smallTrigram

/-! ## Query n-gram derivation -/

/-- The comparator that `CollectQueryNgrams` hands to `sort.SliceStable`. It
reads `arities` and `randomNumbers` by slice position:
`if arities[i] == arities[j] { return randomNumbers[i] < randomNumbers[j] }; return arities[i] > arities[j]`. -/
def queryLess (arities randomNumbers : List Nat) (i j : Nat) : Bool :=
  if arities.getD i 0 = arities.getD j 0 then
    decide (randomNumbers.getD i 0 < randomNumbers.getD j 0)
  else
    decide (arities.getD i 0 > arities.getD j 0)

/-- Go: `func CollectQueryNgrams(query string) []uint64`.

The three sources of nondeterminism are parameters: `rangeMap m` is the order in
which `for hash := range m` visits the keys of the map `m`, `randInt k` is the
value of the `k`-th call of `rand.Int()`, and `sortSliceStable less xs` is the
slice that `sort.SliceStable(xs, less)` leaves behind. -/
def CollectQueryNgrams (rangeMap : List Nat → List Nat) (randInt : Nat → Nat)
    (sortSliceStable : (Nat → Nat → Bool) → List Nat → List Nat)
    (query : List Char) : List Nat :=
  let ngrams := (onGrams query false).1
  let result := rangeMap ngrams
  let arities := result.map ngramArity
  let randomNumbers := (List.range ngrams.length).map randInt
  let result := sortSliceStable (queryLess arities randomNumbers) result
  if result.length > maximumQueryNgrams then result.take maximumQueryNgrams else result

/-! ### A concrete sort that compares by position and moves by swaps -/

/-- Exchange the elements at positions `j` and `j + 1`. -/
def swapAdj : List Nat → Nat → List Nat
  | a :: b :: t, 0 => b :: a :: t
  | a :: t, j + 1 => a :: swapAdj t j
  | l, _ => l

/-- The inner loop of an insertion sort over a `(less, swap)` pair:
`for j := i; j > 0 && less(j, j-1); j-- { swap(j, j-1) }`. -/
def insertLoop (less : Nat → Nat → Bool) : Nat → List Nat → List Nat
  | 0, xs => xs
  | j + 1, xs => if less (j + 1) j then insertLoop less j (swapAdj xs j) else xs

/-- Insertion sort over a `(less, swap)` pair:
`for i := 1; i < n; i++ { insertLoop i }`. -/
def insertionSortLessSwap (less : Nat → Nat → Bool) (xs : List Nat) : List Nat :=
  (List.range xs.length).foldl (fun acc i => insertLoop less i acc) xs

/-! ## Repository indexer -/

/-- The Go runtime's decoding of the rune at the start of a non-empty byte
string, as performed by `for range` over a `string`: the rune and the number of
bytes consumed. Every ill-formed sequence yields `U+FFFD` and width 1. -/
def decodeRune (s : List Nat) : Char × Nat :=
  let cont (b : Nat) : Bool := decide (0x80 ≤ b) && decide (b ≤ 0xBF)
  let bad : Char × Nat := (Char.ofNat 0xFFFD, 1)
  match s with
  | [] => bad
  | s0 :: t =>
    if s0 < 0x80 then (Char.ofNat s0, 1)
    else if s0 < 0xC2 then bad
    else if s0 < 0xE0 then
      match t with
      | s1 :: _ => if cont s1 then (Char.ofNat ((s0 &&& 0x1F) <<< 6 ||| (s1 &&& 0x3F)), 2) else bad
      | _ => bad
    else if s0 < 0xF0 then
      match t with
      | s1 :: s2 :: _ =>
        let lo := if s0 = 0xE0 then 0xA0 else 0x80
        let hi := if s0 = 0xED then 0x9F else 0xBF
        if decide (lo ≤ s1) && decide (s1 ≤ hi) && cont s2 then
          (Char.ofNat ((s0 &&& 0x0F) <<< 12 ||| (s1 &&& 0x3F) <<< 6 ||| (s2 &&& 0x3F)), 3)
        else bad
      | _ => bad
    else if s0 < 0xF5 then
      match t with
      | s1 :: s2 :: s3 :: _ =>
        let lo := if s0 = 0xF0 then 0x90 else 0x80
        let hi := if s0 = 0xF4 then 0x8F else 0xBF
        if decide (lo ≤ s1) && decide (s1 ≤ hi) && cont s2 && cont s3 then
          (Char.ofNat ((s0 &&& 0x07) <<< 18 ||| (s1 &&& 0x3F) <<< 12 ||| (s2 &&& 0x3F) <<< 6
            ||| (s3 &&& 0x3F)), 4)
        else bad
      | _ => bad
    else bad

/-- The runes of a byte string, with a bound on the number of iterations. -/
def runesAux : Nat → List Nat → List Char
  | 0, _ => []
  | _, [] => []
  | fuel + 1, s =>
    let r := decodeRune s
    r.1 :: runesAux fuel (s.drop r.2)

/-- Go: `text := string(textBytes)` followed by `for _, ch0 := range text`: the
sequence of runes that the loop yields. Every iteration consumes at least one
byte, so `textBytes.length` iterations are enough. -/
def runes (textBytes : List UInt8) : List Char :=
  runesAux textBytes.length (textBytes.map UInt8.toNat)

/-- The filter type `xorfilter.BinaryFuse8`, reduced to the one operation the
index uses, `Contains`. -/
structure BinaryFuse8 where
  Contains : Nat → Bool

/-- Go: `type BlobIndex struct { Filter *xorfilter.BinaryFuse8; Path string }`. -/
structure BlobIndex where
  Filter : Option BinaryFuse8
  Path : String

/-- Modelled from the spec: the `FileSystem` interface (section 6, filesystem
contract), whose declaration is not among the sources; both methods return a
value or an error. -/
structure FileSystem where
  ListRelativeFilenames : Except String (List String)
  ReadRelativeFilename : String → Except String (List UInt8)

/-- Go: `type RepoIndex struct { Dir string; Blobs []BlobIndex; FS FileSystem }`. -/
structure RepoIndex where
  Dir : String
  Blobs : List BlobIndex
  FS : FileSystem

/-- Go: `keys[i] = v`; `none` is the run-time panic on an index out of range. -/
def store (keys : List Nat) (i v : Nat) : Option (List Nat) :=
  if i < keys.length then some (keys.set i v) else none

/-- The first loop over the key array in `repoIndexes`:
`for hash := range ngrams { keys[i] = hash; i++ }`, over the visiting order. -/
def copySparse : List Nat → List Nat × Nat → Option (List Nat × Nat)
  | [], st => some st
  | hash :: rest, (keys, i) =>
    match store keys i hash with
    | none => none
    | some keys => copySparse rest (keys, i + 1)

/-- The second loop over the key array in `repoIndexes`:
`for _, hash := range indices { keys[i] = uint64(hash) }`; the loop body does not
advance `i`. -/
def copyDense : List Nat → List Nat → Nat → Option (List Nat)
  | [], keys, _ => some keys
  | hash :: rest, keys, i =>
    match store keys i (hash % u64) with
    | none => none
    | some keys => copyDense rest keys i

/-- The key array that `repoIndexes` builds for one file text (lines 320 to 338)
and passes to `xorfilter.PopulateBinaryFuse8`; `none` is a run-time panic. -/
def fileKeys (rangeMap : List Nat → List Nat) (text : List Char) : Option (List Nat) :=
  match onGrams text true with
  | (_, none) => none
  | (ngrams, some ngramsAscii) =>
    let asciiCount := ngramsAscii.count
    let bloomSize := ngrams.length + asciiCount
    let keys := List.replicate bloomSize 0
    match copySparse (rangeMap ngrams) (keys, 0) with
    | none => none
    | some (keys, i) =>
      let indices := ngramsAscii.nextSetMany (List.replicate bloomSize 0)
      copyDense indices keys i

/-- The body of the per-file loop of `repoIndexes`: `none` is a run-time panic,
`some none` a file that sends nothing on the channel, `some (some b)` the blob
index sent. -/
def indexFile (fs : FileSystem) (isBinary : List UInt8 → Bool)
    (populateBinaryFuse8 : List Nat → Except String BinaryFuse8)
    (rangeMap : List Nat → List Nat) (filename : String) : Option (Option BlobIndex) :=
  match fs.ReadRelativeFilename filename with
  | .error _ => some none
  | .ok textBytes =>
    if textBytes.length = 0 then some none
    else if textBytes.length > maxFileSize then some none
    else if isBinary textBytes then some none
    else
      match fileKeys rangeMap (runes textBytes) with
      | none => none
      | some keys =>
        match populateBinaryFuse8 keys with
        | .ok filter => some (some { Path := filename, Filter := some filter })
        | .error _ => some none

/-- Go: `func repoIndexes(fs FileSystem, filenames []string) chan BlobIndex`, as
the content of the returned channel when the batches of 100 run one after the
other (each batch processes its files in order, and a file sends at most one
blob index); `none` is a run-time panic. -/
def repoIndexes (fs : FileSystem) (isBinary : List UInt8 → Bool)
    (populateBinaryFuse8 : List Nat → Except String BinaryFuse8)
    (rangeMap : List Nat → List Nat) : List String → Option (List BlobIndex)
  | [] => some []
  | filename :: rest =>
    match indexFile fs isBinary populateBinaryFuse8 rangeMap filename with
    | none => none
    | some sent =>
      match repoIndexes fs isBinary populateBinaryFuse8 rangeMap rest with
      | none => none
      | some res => some (sent.toList ++ res)

/-- Go: `func NewInMemoryRepoIndex(fs FileSystem) (*RepoIndex, error)`; the outer
`none` is a run-time panic. -/
def NewInMemoryRepoIndex (fs : FileSystem) (isBinary : List UInt8 → Bool)
    (populateBinaryFuse8 : List Nat → Except String BinaryFuse8)
    (rangeMap : List Nat → List Nat) : Option (Except String RepoIndex) :=
  match fs.ListRelativeFilenames with
  | .error err => some (.error err)
  | .ok filenames =>
    match repoIndexes fs isBinary populateBinaryFuse8 rangeMap filenames with
    | none => none
    | some indexes => some (.ok { Dir := "", Blobs := indexes, FS := fs })

/-! ## Query engine -/

/-- The inner loop of `pathsMatchingQuerySync`:
`for _, gram := range grams { if !index.Filter.Contains(gram) { isMatch = false; break } }`. -/
def testGrams (filter : BinaryFuse8) : List Nat → Bool → Bool
  | [], isMatch => isMatch
  | gram :: rest, isMatch =>
    if !filter.Contains gram then false else testGrams filter rest isMatch

/-- Go: `func (r *RepoIndex) pathsMatchingQuerySync(grams, batch, onMatch)`, as the
list of the arguments of the successive `onMatch` calls. -/
def pathsMatchingQuerySync (grams : List Nat) : List BlobIndex → List String
  | [] => []
  | index :: rest =>
    match index.Filter with
    | none => pathsMatchingQuerySync grams rest
    | some filter =>
      let isMatch := testGrams filter grams (decide (grams.length > 0))
      if isMatch then index.Path :: pathsMatchingQuerySync grams rest
      else pathsMatchingQuerySync grams rest

/-- Go: `func (r *RepoIndex) PathsMatchingQuerySync(query string) []string`. -/
def PathsMatchingQuerySync (rangeMap : List Nat → List Nat) (randInt : Nat → Nat)
    (sortSliceStable : (Nat → Nat → Bool) → List Nat → List Nat)
    (r : RepoIndex) (query : List Char) : List String :=
  let grams := CollectQueryNgrams rangeMap randInt sortSliceStable query
  pathsMatchingQuerySync grams r.Blobs

/-! ## Concrete collaborators used to evaluate the code -/

/-- A filter that answers membership in its key array exactly: it contains every
key it was populated from, and nothing else. -/
def exactFilter (keys : List Nat) : Except String BinaryFuse8 :=
  .ok { Contains := fun k => decide (k ∈ keys) }

/-- A file system holding the given files. -/
def memFS (files : List (String × List UInt8)) : FileSystem :=
  { ListRelativeFilenames := .ok (files.map Prod.fst)
    ReadRelativeFilename := fun name =>
      match files.lookup name with
      | some bytes => .ok bytes
      | none => .error "no such file" }

/-- The bytes of an ASCII string literal. -/
def asciiBytes (s : String) : List UInt8 := s.toList.map (fun c => UInt8.ofNat c.toNat)

/-- A binary detector in the style of the one the indexer calls: a NUL byte
marks the content as binary. -/
def hasNul (bytes : List UInt8) : Bool := bytes.any (fun b => b = 0)


/-- Build the in-memory index of a file system and run one query against it: the
paths of the blobs of the index, in order, and the paths that
`PathsMatchingQuerySync` returns for the query. `none` is a run-time panic or a
failed listing. -/
def buildAndQuery (fs : FileSystem) (isBinary : List UInt8 → Bool)
    (populateBinaryFuse8 : List Nat → Except String BinaryFuse8)
    (rangeMap : List Nat → List Nat) (randInt : Nat → Nat)
    (sortSliceStable : (Nat → Nat → Bool) → List Nat → List Nat)
    (query : List Char) : Option (List String × List String) :=
  match NewInMemoryRepoIndex fs isBinary populateBinaryFuse8 rangeMap with
  | some (.ok r) =>
    some (r.Blobs.map (fun b => b.Path),
      PathsMatchingQuerySync rangeMap randInt sortSliceStable r query)
  | _ => none

/-- A map iteration order: the keys below `2 ^ 14` first, then the others, each
group in insertion order. -/
def smallKeysFirst (m : List Nat) : List Nat :=
  m.filter (fun v => decide (v < 2 ^ 14)) ++ m.filter (fun v => !decide (v < 2 ^ 14))

/-- A query of 40 distinct ASCII codepoints. -/
def query40 : List Char := "abcdefghijklmnopqrstuvwxyz0123456789ABCD".toList

/-- A query of 51 distinct ASCII codepoints. -/
def query51 : List Char := "abcdefghijklmnopqrstuvwxyz0123456789ABCDEFGHIJKLMNO".toList

/-- A file system whose listing names `a.txt`, `gone.txt` and `b.txt`, and in which
`gone.txt` cannot be read. -/
def fsWithGone : FileSystem :=
  { ListRelativeFilenames := .ok (["a.txt"] ++ "gone.txt" :: ["b.txt"])
    ReadRelativeFilename :=
      (memFS [("a.txt", asciiBytes "hi"), ("b.txt", asciiBytes "yo")]).ReadRelativeFilename }

/-- The same file system with a listing that does not name `gone.txt`. -/
def fsWithoutGone : FileSystem :=
  { ListRelativeFilenames := .ok (["a.txt"] ++ ["b.txt"])
    ReadRelativeFilename :=
      (memFS [("a.txt", asciiBytes "hi"), ("b.txt", asciiBytes "yo")]).ReadRelativeFilename }

/-! ## Parallel query -/

/-- The slices `r.Blobs[i:j]` cut by the loop of `PathsMatchingQuery`:
`for i := 0; i < len(r.Blobs); i += batchSize { j := min(i+batchSize, len(r.Blobs)); ... }`.
The first argument bounds the number of iterations. -/
def blobBatches (batchSize : Nat) (blobs : List BlobIndex) : Nat → Nat → List (List BlobIndex)
  | 0, _ => []
  | fuel + 1, i =>
    if i < blobs.length then
      let j := if i + batchSize > blobs.length then blobs.length else i + batchSize
      (blobs.drop i).take (j - i) :: blobBatches batchSize blobs fuel (i + batchSize)
    else []

/-- Go: `func (r *RepoIndex) PathsMatchingQuery(query string) chan string`, as the
content of the returned channel. Each batch of 10,000 blobs is matched by its own
goroutine; `schedule` is the order in which the sends of the goroutines reach the
channel, given what each goroutine sends. -/
def PathsMatchingQuery (rangeMap : List Nat → List Nat) (randInt : Nat → Nat)
    (sortSliceStable : (Nat → Nat → Bool) → List Nat → List Nat)
    (schedule : List (List String) → List String)
    (r : RepoIndex) (query : List Char) : List String :=
  let grams := CollectQueryNgrams rangeMap randInt sortSliceStable query
  let batchSize := 10000
  schedule ((blobBatches batchSize r.Blobs r.Blobs.length 0).map (pathsMatchingQuerySync grams))

/-! ## Framed serialization of a blob index -/

/-- Go: `binary.BigEndian.PutUint64`: the eight bytes of a `uint64`, most
significant first. -/
def putUint64BE (v : Nat) : List UInt8 :=
  [UInt8.ofNat (v >>> 56), UInt8.ofNat (v >>> 48), UInt8.ofNat (v >>> 40), UInt8.ofNat (v >>> 32),
   UInt8.ofNat (v >>> 24), UInt8.ofNat (v >>> 16), UInt8.ofNat (v >>> 8), UInt8.ofNat v]

/-- Go: `binary.BigEndian.Uint64`: the `uint64` held by eight bytes, most
significant first. -/
def uint64BE (bs : List UInt8) : Nat :=
  bs.foldl (fun acc b => acc * 256 + b.toNat) 0

/-- An `io.Writer`: the bytes it has accepted so far, and how it answers a
`Write` call. `accept n k` is the answer to a call that offers `k` bytes after
`n` bytes have been accepted: how many of them are taken (at most `k`), and
whether the call returns an error. -/
structure Writer where
  written : List UInt8
  accept : Nat → Nat → Nat × Bool

/-- Go: `n, err := w.Write(p)`. -/
def Writer.Write (w : Writer) (p : List UInt8) : Nat × Option String × Writer :=
  let a := w.accept w.written.length p.length
  let n := min a.1 p.length
  (n, if a.2 then some "write error" else none, { w with written := w.written ++ p.take n })

/-- An `io.Reader` over a finite byte sequence: the bytes not yet consumed, and how
it answers a `Read` call. `deliver n k` is the answer to a call that asks for `k`
bytes while `n` bytes remain: how many bytes are handed over (at most `k` and at
most `n`), and whether the call returns an error. -/
structure Reader where
  pending : List UInt8
  deliver : Nat → Nat → Nat × Bool

/-- Go: `n, err := stream.Read(p)` with `len(p) = k`: the bytes copied into `p`,
the error, and the stream afterwards. -/
def Reader.Read (r : Reader) (k : Nat) : List UInt8 × Option String × Reader :=
  let d := r.deliver r.pending.length k
  let n := min d.1 (min r.pending.length k)
  (r.pending.take n, if d.2 then some "read error" else none,
    { r with pending := r.pending.drop n })

/-- Go: `binary.Write(w, binary.BigEndian, v)` for a `uint64`: one `Write` call
with the eight bytes, whose error is returned. -/
def binaryWriteUint64 (w : Writer) (v : Nat) : Option String × Writer :=
  let res := w.Write (putUint64BE v)
  (res.2.1, res.2.2)

/-- Go: `binary.Read(stream, binary.BigEndian, &length)` for a `uint64`: the
library fills eight bytes with `io.ReadFull`, so the call succeeds exactly when
eight bytes remain, and otherwise consumes what is left and returns `io.EOF` or
`io.ErrUnexpectedEOF`. -/
def binaryReadUint64 (stream : Reader) : Except String Nat × Reader :=
  if 8 ≤ stream.pending.length then
    (.ok (uint64BE (stream.pending.take 8)), { stream with pending := stream.pending.drop 8 })
  else
    (.error (if stream.pending.length = 0 then "EOF" else "unexpected EOF"),
      { stream with pending := [] })

/-- The values returned by `WriteTo`, and the writer afterwards. -/
structure WriteToResult where
  n : Nat
  err : Option String
  w : Writer

/-- Go: `func (b *BlobIndex) WriteTo(w io.Writer) (int64, error)`.
`gobEncode b` is what `gob.NewEncoder(&buf).Encode(b)` leaves in `buf`, together
with the error it returns. -/
def WriteTo (gobEncode : BlobIndex → List UInt8 × Option String) (b : BlobIndex)
    (w : Writer) : WriteToResult :=
  let data := (gobEncode b).1
  let hdr := binaryWriteUint64 w (data.length % u64)
  match hdr.1 with
  | some err => { n := 8, err := some err, w := hdr.2 }
  | none =>
    let res := hdr.2.Write data
    { n := 8 + data.length, err := none, w := res.2.2 }

/-- The values returned by `ReadFrom`, the receiver after the call and the
stream afterwards. -/
structure ReadFromResult where
  n : Nat
  err : Option String
  b : BlobIndex
  stream : Reader

/-- Go: `func (b *BlobIndex) ReadFrom(stream io.Reader) (int64, error)`.
`gobDecode data` is the result of `gob.NewDecoder(bytes.NewReader(data)).Decode(other)`.
`none` is the run-time panic of `make([]byte, length)` when `length` does not fit
in an `int`. On a given platform `make` panics already above its allocation
limit (`2 ^ 48` bytes on linux/amd64); the lengths between that limit and
`2 ^ 63` are not told apart from the smaller ones here. -/
def ReadFrom (gobDecode : List UInt8 → Except String BlobIndex) (b : BlobIndex)
    (stream : Reader) : Option ReadFromResult :=
  match binaryReadUint64 stream with
  | (.error err, stream) => some { n := 0, err := some err, b := b, stream := stream }
  | (.ok length, stream) =>
    if length ≥ 2 ^ 63 then none
    else
      let res := stream.Read length
      let read := res.1.length
      let data := res.1 ++ List.replicate (length - read) 0
      match res.2.1 with
      | some err => some { n := 8, err := some err, b := b, stream := res.2.2 }
      | none =>
        if read % u64 ≠ length then
          some { n := 8, err := some "read != length", b := b, stream := res.2.2 }
        else
          match gobDecode data with
          | .error err => some { n := 8 + data.length, err := some err, b := b, stream := res.2.2 }
          | .ok other =>
            some { n := 8 + data.length, err := none,
                   b := { b with Path := other.Path, Filter := other.Filter },
                   stream := res.2.2 }

/-! ### Concrete writers, readers and codec used to evaluate the code -/

/-- A writer that accepts every byte it is offered. -/
def acceptAll (written : List UInt8) : Writer :=
  { written := written, accept := fun _ k => (k, false) }

/-- A reader over a byte slice that hands over as many bytes as are asked for and
remain, and reports the end of the stream once nothing remains. -/
def sliceReader (bytes : List UInt8) : Reader :=
  { pending := bytes, deliver := fun n k => (k, n == 0) }

/-- A reader over a byte slice that hands over one byte per `Read` call. -/
def oneByteReader (bytes : List UInt8) : Reader :=
  { pending := bytes, deliver := fun n _ => (1, n == 0) }

/-- A payload codec for blob indexes without a filter: the payload is the bytes
of the path. -/
def pathEncode (b : BlobIndex) : List UInt8 × Option String :=
  (asciiBytes b.Path, none)

/-- The decoder that goes with `pathEncode`. -/
def pathDecode (data : List UInt8) : Except String BlobIndex :=
  .ok { Filter := none, Path := String.mk (data.map (fun x => Char.ofNat x.toNat)) }

/-! ## Persistence to a file -/

/-- Go: `func (r *RepoIndex) SerializeToFile(cacheDir string) (err error)`, given
the errors (`none` is nil) returned by `os.MkdirAll`, `os.Create`, `r.Serialize`
and `cacheOut.Close`. The deferred function runs after `err = r.Serialize(cacheOut)`
and before the named result `err` is returned:
`closeErr := cacheOut.Close(); if err != nil { err = closeErr }`. -/
def SerializeToFile (mkdirAll create serialize close : Option String) : Option String :=
  match mkdirAll with
  | some err => some err
  | none =>
    match create with
    | some err => some err
    | none =>
      let err := serialize
      let closeErr := close
      if err ≠ none then closeErr else err

/-- What is found at a path of the disk. -/
inductive Node where
  | absent : Node
  | dir : Node
  | file (content : List UInt8) : Node
deriving DecidableEq

/-- The answers of the operating system to the calls of `NewOnDiskRepoIndex`: the
error of each call (`none` is nil), the way the temporary file answers `Write`
calls, and for `io.Copy` either `none` (all bytes copied) or the number of bytes
copied before the error. -/
structure DiskOutcomes where
  createTemp : Option String
  tempAccept : Nat → Nat → Nat × Bool
  closeTemp : Option String
  remove : Option String
  mkdirAll : Option String
  create : Option String
  openTemp : Option String
  copy : Option (Nat × String)

/-- The loop `for index := range repoIndexes(fs, filenames) { _, err = index.WriteTo(file); if err != nil { break } }`
over the content of the channel: the last error and the temporary file afterwards. -/
def writeFrames (gobEncode : BlobIndex → List UInt8 × Option String) :
    List BlobIndex → Writer → Option String × Writer
  | [], file => (none, file)
  | index :: rest, file =>
    let res := WriteTo gobEncode index file
    match res.err with
    | some err => (some err, res.w)
    | none => writeFrames gobEncode rest res.w

/-- Go: `func NewOnDiskRepoIndex(fs FileSystem, outputPath string) error`: the
error returned and what is found at `outputPath` afterwards, given what was there
before. `os.Stat(outputPath)` succeeds exactly when something is there. The outer
`none` is a run-time panic. -/
def NewOnDiskRepoIndex (fs : FileSystem) (isBinary : List UInt8 → Bool)
    (populateBinaryFuse8 : List Nat → Except String BinaryFuse8)
    (rangeMap : List Nat → List Nat)
    (gobEncode : BlobIndex → List UInt8 × Option String)
    (os : DiskOutcomes) (target : Node) : Option (Option String × Node) :=
  match os.createTemp with
  | some err => some (some err, target)
  | none =>
    match fs.ListRelativeFilenames with
    | .error err => some (some err, target)
    | .ok filenames =>
      match repoIndexes fs isBinary populateBinaryFuse8 rangeMap filenames with
      | none => none
      | some indexes =>
        let written := writeFrames gobEncode indexes { written := [], accept := os.tempAccept }
        match written.1 with
        | some err => some (some err, target)
        | none =>
          match os.closeTemp with
          | some err => some (some err, target)
          | none =>
            let afterStat : Option String × Node :=
              match target with
              | .dir => (some "can't write to directory", target)
              | .file _ =>
                match os.remove with
                | some err => (some err, target)
                | none => (none, .absent)
              | .absent =>
                match os.mkdirAll with
                | some err => (some err, target)
                | none => (none, target)
            match afterStat.1 with
            | some err => some (some err, afterStat.2)
            | none =>
              match os.create with
              | some err => some (some err, afterStat.2)
              | none =>
                match os.openTemp with
                | some err => some (some err, .file [])
                | none =>
                  match os.copy with
                  | some (n, err) => some (some err, .file (written.2.written.take n))
                  | none => some (none, .file written.2.written)

/-- Answers of an operating system on which every call succeeds. -/
def allSucceed : DiskOutcomes :=
  { createTemp := none, tempAccept := fun _ k => (k, false), closeTemp := none, remove := none,
    mkdirAll := none, create := none, openTemp := none, copy := none }

/-- A writer that accepts the 8 bytes of a frame header and fails afterwards. -/
def failAfterHeader : Writer :=
  { written := [], accept := fun n k => if n < 8 then (k, false) else (0, true) }

/-- An encoder that fails and leaves nothing in the buffer. -/
def failingEncode (_ : BlobIndex) : List UInt8 × Option String :=
  ([], some "gob: encoding failed")

/-! ## Component authors (`catalog/resolvers/component_authors.go`) -/

/-- Go: `type blameAuthor struct { Name, Email string; LineCount int; LastCommit api.CommitID; LastCommitDate time.Time }`,
with the date as a number. -/
structure BlameAuthor where
  Name : String
  Email : String
  LineCount : Int
  LastCommit : String
  LastCommitDate : Int
deriving DecidableEq

/-- The part of an `fs.FileInfo` that `Authors` reads. -/
structure DirEntry where
  Name : String
  IsDir : Bool
deriving DecidableEq

/-- The variables shared by the goroutines of `Authors`, guarded by `mu`. -/
structure AuthorsState where
  all : List (String × BlameAuthor)
  totalLineCount : Int
  allErr : Option String
deriving DecidableEq

/-- The body of `for email, a := range authorsByEmail` in `Authors`, on the map
`all` kept as a list of its entries:
`ca := all[email]; if ca == nil { all[email] = a } else { ca.LineCount += a.LineCount; if a.LastCommitDate.After(ca.LastCommitDate) { ... } }`. -/
def mergeAuthor : List (String × BlameAuthor) → String → BlameAuthor → List (String × BlameAuthor)
  | [], email, a => [(email, a)]
  | (e, ca) :: rest, email, a =>
    if e = email then
      let ca := { ca with LineCount := ca.LineCount + a.LineCount }
      let ca := if a.LastCommitDate > ca.LastCommitDate then
          { ca with Name := a.Name, LastCommit := a.LastCommit, LastCommitDate := a.LastCommitDate }
        else ca
      (e, ca) :: rest
    else (e, ca) :: mergeAuthor rest email a

/-- What one goroutine of `Authors` does to the shared variables, given the
result of `getBlameAuthorsCached` for its entry. -/
def authorsWorker (getBlameAuthorsCached : String → Except String (List (String × BlameAuthor) × Int))
    (st : AuthorsState) (e : DirEntry) : AuthorsState :=
  match getBlameAuthorsCached e.Name with
  | .error err => { st with allErr := if st.allErr = none then some err else st.allErr }
  | .ok (authorsByEmail, lineCount) =>
    { st with
      totalLineCount := st.totalLineCount + lineCount
      all := authorsByEmail.foldl (fun all p => mergeAuthor all p.1 p.2) st.all }

/-- Go: `catalogComponentAuthorEdgeResolver`, reduced to its `data` and
`totalLineCount` fields. -/
structure AuthorEdge where
  data : BlameAuthor
  totalLineCount : Int
deriving DecidableEq

/-- Go: `int32(x)` for an `int`. -/
def toInt32 (x : Int) : Int := (x + 2 ^ 31) % 2 ^ 32 - 2 ^ 31

/-- Go: `func (r *catalogComponentResolver) Authors(ctx) (*[]gql.CatalogComponentAuthorEdgeResolver, error)`:
the edges (`none` is a nil pointer) and the error (`none` is nil).
`readDir` is the result of `git.ReadDir`, `arrival` the order in which the
goroutines take the mutex, `rangeAll` the order in which `range all` visits the
map, and `sortSlice less xs` the slice that `sort.Slice(xs, less)` leaves
behind. -/
def Authors (readDir : Except String (List DirEntry))
    (getBlameAuthorsCached : String → Except String (List (String × BlameAuthor) × Int))
    (arrival : List DirEntry → List DirEntry)
    (rangeAll : List (String × BlameAuthor) → List (String × BlameAuthor))
    (sortSlice : (AuthorEdge → AuthorEdge → Bool) → List AuthorEdge → List AuthorEdge) :
    Option (List AuthorEdge) × Option String :=
  match readDir with
  | .error err => (none, some err)
  | .ok entries =>
    -- from here on the variable `err` of `Authors` is nil
    let err : Option String := none
    let started := entries.filter (fun e => !e.IsDir)
    let st := (arrival started).foldl (authorsWorker getBlameAuthorsCached)
      { all := [], totalLineCount := 0, allErr := none }
    if st.allErr ≠ none then
      (none, err)
    else
      let edges := (rangeAll st.all).map
        (fun p => ({ data := p.2, totalLineCount := st.totalLineCount } : AuthorEdge))
      (some (sortSlice
        (fun a b => decide (toInt32 a.data.LineCount > toInt32 b.data.LineCount)) edges), none)

/-- A result of `getBlameAuthorsCached`: the blame fails for the file `bad` and
gives one author with three lines for every other file. -/
def blameFailsOn (bad : String) (path : String) :
    Except String (List (String × BlameAuthor) × Int) :=
  if path = bad then .error "blame failed"
  else .ok ([("x@example.com",
    { Name := "X", Email := "x@example.com", LineCount := 3, LastCommit := "c1",
      LastCommitDate := 5 })], 3)

/-! ## Arithmetic of the n-gram encoding -/

theorem char_toNat_lt (c : Char) : c.toNat < 2 ^ 21 := by
  have h := c.valid
  have h2 : c.toNat = c.val.toNat := rfl
  rcases h with h | ⟨_, h⟩
  · have : c.val.toNat < 0xd800 := h
    omega
  · have : c.val.toNat < 0x110000 := h
    omega

theorem cp_lt (p : List Char) (i : Nat) : cp p i < 2 ^ 21 := char_toNat_lt _

theorem shl64_seven {x : Nat} (h : x < 2 ^ 21) : shl64 x 7 = x <<< 7 := by
  unfold shl64 u64
  rw [Nat.shiftLeft_eq]
  apply Nat.mod_eq_of_lt
  omega

theorem shl64_fourteen {x : Nat} (h : x < 2 ^ 21) : shl64 x 14 = x <<< 14 := by
  unfold shl64 u64
  rw [Nat.shiftLeft_eq]
  apply Nat.mod_eq_of_lt
  omega

theorem shl_seven_lt {x : Nat} (h : x < 2 ^ 21) : x <<< 7 < 2 ^ 35 := by
  rw [Nat.shiftLeft_eq]; omega

theorem shl_fourteen_lt {x : Nat} (h : x < 2 ^ 21) : x <<< 14 < 2 ^ 35 := by
  rw [Nat.shiftLeft_eq]; omega

/-- Every value of the reference n-gram set fits in 35 bits. -/
theorem refNgram_lt {p : List Char} {v : Nat} (h : RefNgram p v) : v < 2 ^ 35 := by
  have hc : ∀ i, cp p i < 2 ^ 35 := fun i => lt_trans (cp_lt p i) (by norm_num)
  rcases h with ⟨i, _, rfl⟩ | ⟨i, _, _, rfl⟩ | ⟨i, _, _, rfl⟩
  · exact hc i
  · exact Nat.or_lt_two_pow (hc i) (shl_seven_lt (cp_lt p _))
  · exact Nat.or_lt_two_pow (Nat.or_lt_two_pow (hc i) (shl_seven_lt (cp_lt p _)))
      (shl_fourteen_lt (cp_lt p _))

/-- A value below `2 ^ 62` carries neither arity tag. -/
theorem ngramArity_of_lt {n : Nat} (h : n < 2 ^ 62) : ngramArity n = 1 := by
  have ht : trigramArity = 3 * 2 ^ 62 := by decide
  have hb : bigramArity = 2 * 2 ^ 62 := by decide
  have h1 : trigramArity &&& n ≤ n := Nat.and_le_right
  have h2 : bigramArity &&& n ≤ n := Nat.and_le_right
  unfold ngramArity
  rw [if_neg (by omega), if_neg (by omega)]

/-! ## Membership in the two set representations -/

theorem mem_mapInsert {m : List Nat} {k v : Nat} : v ∈ mapInsert m k ↔ v = k ∨ v ∈ m := by
  unfold mapInsert
  split
  · constructor
    · exact Or.inr
    · rintro (rfl | h)
      · assumption
      · exact h
  · simp [or_comm]

theorem mem_bitSet_set {b : BitSet} {i v : Nat} : v ∈ BitSet.set b i ↔ v = i ∨ v ∈ b := by
  unfold BitSet.set
  split
  · constructor
    · exact Or.inr
    · rintro (rfl | h)
      · assumption
      · exact h
  · simp

theorem route_fields (ub : Bool) (x : Nat) (s : GramState) :
    (route ub x s).ch1 = s.ch1 ∧ (route ub x s).ch2 = s.ch2 ∧ (route ub x s).i = s.i := by
  unfold route
  split <;> simp

theorem route_shape {ub : Bool} {s : GramState} (x : Nat) (h : s.Shape ub) :
    (route ub x s).Shape ub := by
  unfold route
  split
  · refine ⟨fun hu => ?_, fun hu => ?_⟩
    · obtain ⟨d, hd⟩ := h.1 hu
      exact ⟨d.set x, by simp [hd]⟩
    · simp [h.2 hu]
  · exact h

theorem route_mem {ub : Bool} {s : GramState} (x v : Nat) (h : s.Shape ub) :
    (route ub x s).Mem v ↔ v = x ∨ s.Mem v := by
  unfold route GramState.Mem
  split
  · rename_i hc
    have hu : ub = true := by
      cases ub
      · simp at hc
      · rfl
    obtain ⟨d, hd⟩ := h.1 hu
    simp only [hd, Option.map_some', Option.some.injEq, exists_eq_left']
    rw [mem_bitSet_set]
    tauto
  · simp only [mem_mapInsert]
    tauto

/-! ## The loop invariant of `onGrams` -/

theorem cp_append_left {l : List Char} {i : Nat} (c : Char) (h : i < l.length) :
    cp (l ++ [c]) i = cp l i := by
  unfold cp
  rw [List.getD_append _ _ _ _ h]

theorem cp_append_last (l : List Char) (c : Char) : cp (l ++ [c]) l.length = c.toNat := by
  unfold cp
  rw [List.getD_append_right _ _ _ _ (le_refl _)]
  simp

theorem back_lt (l : List Char) (k : Nat) : back l k < 2 ^ 21 := by
  unfold back
  split
  · exact cp_lt _ _
  · norm_num

/-- The reference n-gram set of a text extended by one codepoint. -/
theorem refNgram_snoc (l : List Char) (c : Char) (v : Nat) :
    RefNgram (l ++ [c]) v ↔
      RefNgram l v ∨ v = c.toNat ∨
      (1 < l.length ∧ v = (c.toNat ||| (back l 1 <<< 7))) ∨
      (2 < l.length ∧ v = (c.toNat ||| (back l 1 <<< 7) ||| (back l 2 <<< 14))) := by
  have hlen : (l ++ [c]).length = l.length + 1 := by simp
  constructor
  · rintro (⟨i, hi, rfl⟩ | ⟨i, h2, hi, rfl⟩ | ⟨i, h3, hi, rfl⟩)
    · rw [hlen] at hi
      rcases Nat.lt_or_ge i l.length with h | h
      · exact Or.inl (Or.inl ⟨i, h, cp_append_left c h⟩)
      · have : i = l.length := by omega
        subst this
        exact Or.inr (Or.inl (cp_append_last l c))
    · rw [hlen] at hi
      rcases Nat.lt_or_ge i l.length with h | h
      · refine Or.inl (Or.inr (Or.inl ⟨i, h2, h, ?_⟩))
        rw [cp_append_left c h, cp_append_left c (by omega : i - 1 < l.length)]
      · have : i = l.length := by omega
        subst this
        refine Or.inr (Or.inr (Or.inl ⟨by omega, ?_⟩))
        rw [cp_append_last, cp_append_left c (by omega : l.length - 1 < l.length)]
        simp only [back]
        rw [if_pos (by omega)]
    · rw [hlen] at hi
      rcases Nat.lt_or_ge i l.length with h | h
      · refine Or.inl (Or.inr (Or.inr ⟨i, h3, h, ?_⟩))
        rw [cp_append_left c h, cp_append_left c (by omega : i - 1 < l.length),
          cp_append_left c (by omega : i - 2 < l.length)]
      · have : i = l.length := by omega
        subst this
        refine Or.inr (Or.inr (Or.inr ⟨by omega, ?_⟩))
        rw [cp_append_last, cp_append_left c (by omega : l.length - 1 < l.length),
          cp_append_left c (by omega : l.length - 2 < l.length)]
        simp only [back]
        rw [if_pos (by omega), if_pos (by omega)]
  · rintro ((⟨i, hi, rfl⟩ | ⟨i, h2, hi, rfl⟩ | ⟨i, h3, hi, rfl⟩) | rfl | ⟨h, rfl⟩ | ⟨h, rfl⟩)
    · exact Or.inl ⟨i, by omega, (cp_append_left c hi).symm⟩
    · refine Or.inr (Or.inl ⟨i, h2, by omega, ?_⟩)
      rw [cp_append_left c hi, cp_append_left c (by omega : i - 1 < l.length)]
    · refine Or.inr (Or.inr ⟨i, h3, by omega, ?_⟩)
      rw [cp_append_left c hi, cp_append_left c (by omega : i - 1 < l.length),
        cp_append_left c (by omega : i - 2 < l.length)]
    · exact Or.inl ⟨l.length, by omega, (cp_append_last l c).symm⟩
    · refine Or.inr (Or.inl ⟨l.length, by omega, by omega, ?_⟩)
      rw [cp_append_last, cp_append_left c (by omega : l.length - 1 < l.length)]
      simp only [back]
      rw [if_pos (by omega)]
    · refine Or.inr (Or.inr ⟨l.length, by omega, by omega, ?_⟩)
      rw [cp_append_last, cp_append_left c (by omega : l.length - 1 < l.length),
        cp_append_left c (by omega : l.length - 2 < l.length)]
      simp only [back]
      rw [if_pos (by omega), if_pos (by omega)]

theorem back_snoc_one (l : List Char) (c : Char) : back (l ++ [c]) 1 = c.toNat := by
  unfold back
  rw [if_pos (by simp)]
  simpa using cp_append_last l c

theorem back_snoc_two (l : List Char) (c : Char) : back (l ++ [c]) 2 = back l 1 := by
  have hlen : (l ++ [c]).length = l.length + 1 := by simp
  unfold back
  by_cases h : 1 ≤ l.length
  · rw [if_pos (by omega), if_pos h]
    have : (l ++ [c]).length - 2 = l.length - 1 := by omega
    rw [this, cp_append_left c (by omega)]
  · rw [if_neg (by omega), if_neg h]

theorem ite_route_fields (b : Prop) [Decidable b] (ub : Bool) (x : Nat) (s : GramState) :
    (if b then route ub x s else s).ch1 = s.ch1 ∧ (if b then route ub x s else s).ch2 = s.ch2 ∧
      (if b then route ub x s else s).i = s.i := by
  split
  · exact route_fields ub x s
  · exact ⟨rfl, rfl, rfl⟩

theorem ite_route_shape (b : Prop) [Decidable b] {ub : Bool} {s : GramState} (x : Nat)
    (h : s.Shape ub) : (if b then route ub x s else s).Shape ub := by
  split
  · exact route_shape x h
  · exact h

theorem ite_route_mem (b : Prop) [Decidable b] {ub : Bool} {s : GramState} (x v : Nat)
    (h : s.Shape ub) : (if b then route ub x s else s).Mem v ↔ (b ∧ v = x) ∨ s.Mem v := by
  split
  · rename_i hb
    rw [route_mem x v h]
    exact ⟨fun h' => h'.imp_left (fun e => ⟨hb, e⟩), fun h' => h'.imp_left And.right⟩
  · rename_i hb
    exact ⟨Or.inr, fun h' => h'.elim (fun hx => absurd hx.1 hb) id⟩

theorem loopInv_init (ub : Bool) : LoopInv ub [] (onGramsInit ub) := by
  refine ⟨rfl, rfl, rfl, ?_, ?_⟩
  · cases ub <;> simp [GramState.Shape, onGramsInit]
  · intro v
    cases ub <;> simp [GramState.Mem, onGramsInit, RefNgram]

theorem loopInv_step {ub : Bool} {l : List Char} {s : GramState} (c : Char)
    (h : LoopInv ub l s) : LoopInv ub (l ++ [c]) (onGramsStep ub s c) := by
  obtain ⟨hi, h1, h2, hs, hm⟩ := h
  have hlen : (l ++ [c]).length = l.length + 1 := by simp
  unfold onGramsStep
  simp only []
  -- the three routing statements in turn
  have f1 := route_fields ub c.toNat s
  have s1 := route_shape c.toNat hs
  have m1 := fun v => @route_mem ub s c.toNat v hs
  generalize route ub c.toNat s = t1 at f1 s1 m1 ⊢
  have e1 : t1.ch1 = back l 1 := by rw [f1.1, h1]
  have e2 : t1.ch2 = back l 2 := by rw [f1.2.1, h2]
  have ei : t1.i = l.length := by rw [f1.2.2, hi]
  have hb : bigramOf c.toNat t1.ch1 = (c.toNat ||| (back l 1 <<< 7)) := by
    rw [bigramOf, e1, shl64_seven (back_lt l 1)]
  have ht : trigramOf c.toNat t1.ch1 t1.ch2
      = (c.toNat ||| (back l 1 <<< 7) ||| (back l 2 <<< 14)) := by
    rw [trigramOf, e1, e2, shl64_seven (back_lt l 1), shl64_fourteen (back_lt l 2)]
  have f2 := ite_route_fields (t1.i > 1) ub (bigramOf c.toNat t1.ch1) t1
  have s2 := ite_route_shape (t1.i > 1) (bigramOf c.toNat t1.ch1) s1
  have m2 := fun v => ite_route_mem (t1.i > 1) (bigramOf c.toNat t1.ch1) v s1
  generalize (if t1.i > 1 then route ub (bigramOf c.toNat t1.ch1) t1 else t1) = t2
    at f2 s2 m2 ⊢
  rw [hb, ei] at m2
  rw [← f2.1, ← f2.2.1] at ht
  have f3 := ite_route_fields (t2.i > 2) ub (trigramOf c.toNat t2.ch1 t2.ch2) t2
  have s3 := ite_route_shape (t2.i > 2) (trigramOf c.toNat t2.ch1 t2.ch2) s2
  have m3 := fun v => ite_route_mem (t2.i > 2) (trigramOf c.toNat t2.ch1 t2.ch2) v s2
  generalize (if t2.i > 2 then route ub (trigramOf c.toNat t2.ch1 t2.ch2) t2 else t2) = t3
    at f3 s3 m3 ⊢
  rw [ht, f2.2.2, ei] at m3
  refine ⟨?_, ?_, ?_, s3, ?_⟩
  · show t3.i + 1 = (l ++ [c]).length
    rw [f3.2.2, f2.2.2, ei, hlen]
  · show c.toNat = back (l ++ [c]) 1
    rw [back_snoc_one]
  · show t3.ch1 = back (l ++ [c]) 2
    rw [back_snoc_two, f3.1, f2.1, e1]
  · intro v
    show t3.Mem v ↔ _
    rw [refNgram_snoc, m3, m2, m1, hm]
    tauto

/-- The loop invariant holds after the whole text. -/
theorem loopInv_loop (ub : Bool) (text : List Char) :
    LoopInv ub text (onGramsLoop ub text) := by
  unfold onGramsLoop
  induction text using List.reverseRecOn with
  | nil => exact loopInv_init ub
  | append_singleton l c ih =>
    rw [List.foldl_append]
    exact loopInv_step c ih

/-- Membership in the sets returned by `onGrams` is membership in the reference
n-gram set. -/
theorem mem_ngramUnion_onGrams (text : List Char) (ub : Bool) (v : Nat) :
    v ∈ ngramUnion (onGrams text ub) ↔ RefNgram text v := by
  rw [← (loopInv_loop ub text).mem v]
  unfold ngramUnion onGrams GramState.Mem
  simp only [List.mem_append]
  cases (onGramsLoop ub text).seenAscii <;> simp

theorem onGrams_false_snd (text : List Char) : (onGrams text false).2 = none :=
  (loopInv_loop false text).shape.2 rfl

theorem onGrams_true_snd (text : List Char) : ∃ d, (onGrams text true).2 = some d :=
  (loopInv_loop true text).shape.1 rfl

theorem mem_onGrams_false (text : List Char) (v : Nat) :
    v ∈ (onGrams text false).1 ↔ RefNgram text v := by
  rw [← mem_ngramUnion_onGrams text false v]
  unfold ngramUnion
  rw [onGrams_false_snd]
  simp

/-! ## Substrings -/

theorem cp_contiguous (pre q suf : List Char) {i : Nat} (h : i < q.length) :
    cp (pre ++ q ++ suf) (pre.length + i) = cp q i := by
  unfold cp
  rw [List.append_assoc, List.getD_append_right _ _ _ _ (Nat.le_add_right _ _),
    Nat.add_sub_cancel_left, List.getD_append _ _ _ _ h]

/-- The reference n-gram set of a contiguous part of a text is included in the
reference n-gram set of the text. -/
theorem refNgram_contiguous {q t : List Char} {v : Nat} (hsub : q <:+: t) (h : RefNgram q v) :
    RefNgram t v := by
  obtain ⟨pre, suf, rfl⟩ := hsub
  have hlen : (pre ++ q ++ suf).length = pre.length + q.length + suf.length := by
    simp only [List.length_append]
  rcases h with ⟨i, hi, rfl⟩ | ⟨i, h2, hi, rfl⟩ | ⟨i, h3, hi, rfl⟩
  · exact Or.inl ⟨pre.length + i, by omega, (cp_contiguous pre q suf hi).symm⟩
  · refine Or.inr (Or.inl ⟨pre.length + i, by omega, by omega, ?_⟩)
    have e : pre.length + i - 1 = pre.length + (i - 1) := by omega
    rw [e, cp_contiguous pre q suf hi, cp_contiguous pre q suf (by omega : i - 1 < q.length)]
  · refine Or.inr (Or.inr ⟨pre.length + i, by omega, by omega, ?_⟩)
    have e : pre.length + i - 1 = pre.length + (i - 1) := by omega
    have e' : pre.length + i - 2 = pre.length + (i - 2) := by omega
    rw [e, e', cp_contiguous pre q suf hi, cp_contiguous pre q suf (by omega : i - 1 < q.length),
      cp_contiguous pre q suf (by omega : i - 2 < q.length)]

/-! ## Query n-grams -/

/-- Every query n-gram is a key of the map that `onGrams` returned for the
query, provided map iteration and the sort only rearrange. -/
theorem mem_of_mem_collectQueryNgrams {rangeMap : List Nat → List Nat} (randInt : Nat → Nat)
    {sortSliceStable : (Nat → Nat → Bool) → List Nat → List Nat}
    (hrange : ∀ m, (rangeMap m).Perm m)
    (hsort : ∀ less xs, (sortSliceStable less xs).Perm xs) (query : List Char) :
    CollectQueryNgrams rangeMap randInt sortSliceStable query ⊆ (onGrams query false).1 := by
  intro v hv
  unfold CollectQueryNgrams at hv
  simp only [] at hv
  have hmem : ∀ less, v ∈ sortSliceStable less (rangeMap (onGrams query false).1) →
      v ∈ (onGrams query false).1 := fun less h =>
    (hrange _).subset ((hsort less _).subset h)
  split at hv
  · exact hmem _ (List.mem_of_mem_take hv)
  · exact hmem _ hv

/-- Every value that `onGrams` returns decodes to arity 1. -/
theorem ngramArity_of_refNgram {p : List Char} {v : Nat} (h : RefNgram p v) :
    ngramArity v = 1 :=
  ngramArity_of_lt (lt_trans (refNgram_lt h) (by norm_num))

theorem chain_of_forall_arity_one :
    ∀ l : List Nat, (∀ v ∈ l, ngramArity v = 1) →
      List.Chain' (fun a b => ngramArity a ≥ ngramArity b) l
  | [], _ => List.chain'_nil
  | [_], _ => List.chain'_singleton _
  | a :: b :: t, h => by
    refine List.Chain'.cons ?_ (chain_of_forall_arity_one (b :: t) ?_)
    · rw [h a (by simp), h b (by simp)]
    · intro v hv
      exact h v (List.mem_cons_of_mem _ hv)

/-! ## The swap-based insertion sort rearranges -/

theorem swapAdj_perm : ∀ (xs : List Nat) (j : Nat), (swapAdj xs j).Perm xs
  | [], _ => by simp [swapAdj]
  | [a], 0 => by simp [swapAdj]
  | [a], j + 1 => by simp [swapAdj]
  | a :: b :: t, 0 => by
    simp only [swapAdj]
    exact List.Perm.swap _ _ _
  | a :: b :: t, j + 1 => by
    simp only [swapAdj]
    exact List.Perm.cons _ (swapAdj_perm (b :: t) j)

theorem insertLoop_perm (less : Nat → Nat → Bool) :
    ∀ (j : Nat) (xs : List Nat), (insertLoop less j xs).Perm xs
  | 0, xs => by simp [insertLoop]
  | j + 1, xs => by
    simp only [insertLoop]
    split
    · exact (insertLoop_perm less j _).trans (swapAdj_perm xs j)
    · exact List.Perm.refl _

theorem foldl_insertLoop_perm (less : Nat → Nat → Bool) :
    ∀ (is xs : List Nat), (is.foldl (fun acc i => insertLoop less i acc) xs).Perm xs
  | [], xs => by simp
  | i :: is, xs => by
    simp only [List.foldl_cons]
    exact (foldl_insertLoop_perm less is _).trans (insertLoop_perm less i xs)

theorem insertionSortLessSwap_perm (less : Nat → Nat → Bool) (xs : List Nat) :
    (insertionSortLessSwap less xs).Perm xs :=
  foldl_insertLoop_perm less _ xs

/-! ## Theorems about the extractor and the query n-grams -/

/-- C4. N-gram monotonicity under substring: for every text `T` and every
non-empty contiguous part `Q` of it, every element of `CollectQueryNgrams(Q)` is
in the sparse set or the dense bitset of `onGrams(T, true)`, whatever the map
iteration order, the random numbers and the rearrangement made by the sort. -/
theorem collectQueryNgrams_subset_text
    (rangeMap : List Nat → List Nat) (randInt : Nat → Nat)
    (sortSliceStable : (Nat → Nat → Bool) → List Nat → List Nat)
    (hrange : ∀ m, (rangeMap m).Perm m)
    (hsort : ∀ less xs, (sortSliceStable less xs).Perm xs)
    (T Q : List Char) (_hne : Q ≠ []) (hsub : Q <:+: T) :
    CollectQueryNgrams rangeMap randInt sortSliceStable Q ⊆ ngramUnion (onGrams T true) := by
  intro v hv
  have hq := mem_of_mem_collectQueryNgrams randInt hrange hsort Q hv
  rw [mem_onGrams_false] at hq
  rw [mem_ngramUnion_onGrams]
  exact refNgram_contiguous hsub hq

/-- Witness of C4: the query `lo w` inside the text `hello world`, with the map
visited in reverse insertion order and the swap-based insertion sort. -/
theorem collectQueryNgrams_subset_text_witness :
    (∀ m : List Nat, (List.reverse m).Perm m) ∧
    (∀ less xs, (insertionSortLessSwap less xs).Perm xs) ∧
    "lo w".toList ≠ [] ∧ "lo w".toList <:+: "hello world".toList ∧
    CollectQueryNgrams List.reverse (fun k => (7 * k + 3) % 5) insertionSortLessSwap
      "lo w".toList ⊆ ngramUnion (onGrams "hello world".toList true) :=
  ⟨List.reverse_perm, insertionSortLessSwap_perm, by decide,
    ⟨"hel".toList, "orld".toList, by decide⟩,
    collectQueryNgrams_subset_text List.reverse (fun k => (7 * k + 3) % 5) insertionSortLessSwap
      List.reverse_perm insertionSortLessSwap_perm "hello world".toList "lo w".toList
      (by decide) ⟨"hel".toList, "orld".toList, by decide⟩⟩

/-- C5. Extractor reference definition: for every text with codepoints `p[0..n)`
and either value of `useBitset`, a value is in the union of the sets returned by
`onGrams` exactly when it is `p[i]` for some `0 ≤ i < n`, or
`p[i] | (p[i-1] << 7)` for some `2 ≤ i < n`, or
`p[i] | (p[i-1] << 7) | (p[i-2] << 14)` for some `3 ≤ i < n`. -/
theorem onGrams_reference (p : List Char) (useBitset : Bool) (v : Nat) :
    v ∈ ngramUnion (onGrams p useBitset) ↔
      (∃ i, i < p.length ∧ v = cp p i) ∨
      (∃ i, 2 ≤ i ∧ i < p.length ∧ v = (cp p i ||| (cp p (i - 1) <<< 7))) ∨
      (∃ i, 3 ≤ i ∧ i < p.length ∧
        v = (cp p i ||| (cp p (i - 1) <<< 7) ||| (cp p (i - 2) <<< 14))) :=
  mem_ngramUnion_onGrams p useBitset v

/-- C6, counterexample. The two-codepoint string `ab` yields two n-grams, with
or without the dense bitset, and the bigram `b | (a << 7)` is not among them. -/
theorem two_codepoints_no_bigram :
    (ngramUnion (onGrams ['a', 'b'] true)).length = 2 ∧
    bigramOf 'b'.toNat 'a'.toNat ∉ ngramUnion (onGrams ['a', 'b'] true) ∧
    (ngramUnion (onGrams ['a', 'b'] false)).length = 2 ∧
    bigramOf 'b'.toNat 'a'.toNat ∉ ngramUnion (onGrams ['a', 'b'] false) := by
  decide

/-- C6, amended. For every string of exactly two distinct codepoints `a` then
`b`, `onGrams` yields exactly two n-grams, the unigram of `a` and the unigram of
`b`; no bigram is emitted before iteration index 2. -/
theorem onGrams_two_unigrams (a b : Char) (hab : a ≠ b) (useBitset : Bool) :
    (ngramUnion (onGrams [a, b] useBitset)).length = 2 ∧
    ∀ v, v ∈ ngramUnion (onGrams [a, b] useBitset) ↔ v = a.toNat ∨ v = b.toNat := by
  have hne : a.toNat ≠ b.toNat := by
    intro h
    apply hab
    apply Char.ext
    apply UInt32.ext
    exact h
  have ha : a.toNat < smallTrigram := char_toNat_lt a
  have hb : b.toNat < smallTrigram := char_toNat_lt b
  cases useBitset
  · have e : onGrams [a, b] false = ([a.toNat, b.toNat], none) := by
      simp [onGrams, onGramsLoop, onGramsStep, onGramsInit, route, mapInsert, hne.symm]
    rw [e]
    simp [ngramUnion]
  · by_cases hle : b.toNat ≤ a.toNat
    · have e : onGrams [a, b] true = ([], some [b.toNat, a.toNat]) := by
        simp [onGrams, onGramsLoop, onGramsStep, onGramsInit, route, BitSet.set, ha, hb,
          hne.symm, hle]
      rw [e]
      simp [ngramUnion, or_comm]
    · have e : onGrams [a, b] true = ([], some [a.toNat, b.toNat]) := by
        simp [onGrams, onGramsLoop, onGramsStep, onGramsInit, route, BitSet.set, ha, hb,
          hne.symm, hle]
      rw [e]
      simp [ngramUnion]

/-- Witness of C6 (amended): the string `ab` with the dense bitset. -/
theorem onGrams_two_unigrams_witness :
    'a' ≠ 'b' ∧ (ngramUnion (onGrams ['a', 'b'] true)).length = 2 ∧
    ∀ v, v ∈ ngramUnion (onGrams ['a', 'b'] true) ↔ v = 'a'.toNat ∨ v = 'b'.toNat :=
  ⟨by decide, onGrams_two_unigrams 'a' 'b' (by decide) true⟩

/-- C7. For every text `T`, `onGrams(T, false)` returns no dense bitset,
`onGrams(T, true)` returns one, and the union of the sparse set and the dense
bitset of `onGrams(T, true)` has the same members as the sparse set of
`onGrams(T, false)`. -/
theorem onGrams_dense_eq_sparse (T : List Char) :
    (onGrams T false).2 = none ∧
    ∃ dense, (onGrams T true).2 = some dense ∧
      ∀ v, (v ∈ (onGrams T true).1 ∨ v ∈ dense) ↔ v ∈ (onGrams T false).1 := by
  refine ⟨onGrams_false_snd T, ?_⟩
  obtain ⟨d, hd⟩ := onGrams_true_snd T
  refine ⟨d, hd, fun v => ?_⟩
  rw [mem_onGrams_false, ← mem_ngramUnion_onGrams T true v]
  unfold ngramUnion
  rw [hd]
  simp

/-- C8, evaluated. In the text `abcd` the extractor builds the bigram of `bc` and
the trigram of `bcd`, and `ngramArity` returns 1 on both of them. -/
theorem ngramArity_bigram_trigram_abcd :
    bigramOf 'c'.toNat 'b'.toNat ∈ ngramUnion (onGrams "abcd".toList false) ∧
    ngramArity (bigramOf 'c'.toNat 'b'.toNat) = 1 ∧
    trigramOf 'd'.toNat 'c'.toNat 'b'.toNat ∈ ngramUnion (onGrams "abcd".toList false) ∧
    ngramArity (trigramOf 'd'.toNat 'c'.toNat 'b'.toNat) = 1 := by
  decide

/-- C9, evaluated. The unigram of `U+3163` is the same 64-bit value as the bigram
of `bc`, and the bigram of `U+30E2` followed by `c` is the same value as the
trigram of `abc`; each of the four n-grams is built by the extractor. -/
theorem ngram_arities_collide :
    (Char.ofNat 0x3163).toNat = bigramOf 'c'.toNat 'b'.toNat ∧
    (onGrams ['a', 'b', 'c', Char.ofNat 0x3163] false).1
      = [97, 98, 99, bigramOf 'c'.toNat 'b'.toNat, bigramOf 0x3163 'c'.toNat,
          trigramOf 0x3163 'c'.toNat 'b'.toNat] ∧
    bigramOf 'c'.toNat (Char.ofNat 0x30E2).toNat = trigramOf 'c'.toNat 'b'.toNat 'a'.toNat ∧
    (onGrams ['x', 'a', 'b', 'c'] false).1
      = [120, 97, 98, bigramOf 'b'.toNat 'a'.toNat, 99, bigramOf 'c'.toNat 'b'.toNat,
          trigramOf 'c'.toNat 'b'.toNat 'a'.toNat] ∧
    (onGrams ['x', 'y', Char.ofNat 0x30E2, 'c'] false).1
      = [120, 121, 0x30E2, bigramOf 0x30E2 'y'.toNat, 99, bigramOf 'c'.toNat 0x30E2,
          trigramOf 'c'.toNat 0x30E2 'y'.toNat] := by
  decide

/-- C10. For every query, every map iteration order, every outcome of the random
numbers and every rearrangement made by the sort, the list returned by
`CollectQueryNgrams` is non-increasing in the arity decoded by `ngramArity`. -/
theorem collectQueryNgrams_sorted_by_arity
    (rangeMap : List Nat → List Nat) (randInt : Nat → Nat)
    (sortSliceStable : (Nat → Nat → Bool) → List Nat → List Nat)
    (hrange : ∀ m, (rangeMap m).Perm m)
    (hsort : ∀ less xs, (sortSliceStable less xs).Perm xs) (query : List Char) :
    List.Chain' (fun a b => ngramArity a ≥ ngramArity b)
      (CollectQueryNgrams rangeMap randInt sortSliceStable query) := by
  apply chain_of_forall_arity_one
  intro v hv
  have hq := mem_of_mem_collectQueryNgrams randInt hrange hsort query hv
  rw [mem_onGrams_false] at hq
  exact ngramArity_of_refNgram hq

/-- Witness of C10: the query `hello`, with the map visited in insertion order
and the swap-based insertion sort. -/
theorem collectQueryNgrams_sorted_by_arity_witness :
    (∀ m : List Nat, (id m).Perm m) ∧
    (∀ less xs, (insertionSortLessSwap less xs).Perm xs) ∧
    List.Chain' (fun a b => ngramArity a ≥ ngramArity b)
      (CollectQueryNgrams id (fun k => (5 * k + 1) % 7) insertionSortLessSwap "hello".toList) :=
  ⟨fun m => List.Perm.refl m, insertionSortLessSwap_perm,
    collectQueryNgrams_sorted_by_arity id (fun k => (5 * k + 1) % 7) insertionSortLessSwap
      (fun m => List.Perm.refl m) insertionSortLessSwap_perm "hello".toList⟩

/-! ## The key array of a file and the end-to-end match, evaluated -/

/-- The exact filter contains every key of the array it was populated from. -/
theorem exactFilter_contains (keys : List Nat) :
    ∃ f, exactFilter keys = .ok f ∧ ∀ k ∈ keys, f.Contains k = true :=
  ⟨_, rfl, fun k hk => by simpa using hk⟩

/-- C1, evaluated. With the corpus `a.txt = "hello world"`, `b.txt = "goodbye"`
and a filter that contains exactly the keys it was populated from, both files are
indexed, and `PathsMatchingQuerySync` returns no path for the query `hello`, nor
for the query `bye`. -/
theorem pathsMatchingQuerySync_misses_substring :
    buildAndQuery
        (memFS [("a.txt", asciiBytes "hello world"), ("b.txt", asciiBytes "goodbye")])
        hasNul exactFilter id (fun k => k) insertionSortLessSwap "hello".toList
      = some (["a.txt", "b.txt"], []) ∧
    buildAndQuery
        (memFS [("a.txt", asciiBytes "hello world"), ("b.txt", asciiBytes "goodbye")])
        hasNul exactFilter id (fun k => k) insertionSortLessSwap "bye".toList
      = some (["a.txt", "b.txt"], []) := by
  decide

/-- C2, evaluated. For the text `ab` the extractor returns an empty sparse set and
the dense bitset `{97, 98}`, and the key array built by `repoIndexes` is
`[98, 0]`: the index 97 is not in it and the value 0 is. -/
theorem fileKeys_ab :
    onGrams ['a', 'b'] true = ([], some [97, 98]) ∧
    fileKeys id ['a', 'b'] = some [98, 0] := by
  decide

/-- C3, evaluated. For the text `abc` the key array built by `repoIndexes` is
`[12643, 0, 0, 0]`, in which the value 0 occurs three times. -/
theorem fileKeys_abc_duplicates :
    fileKeys id ['a', 'b', 'c'] = some [12643, 0, 0, 0] ∧
    ¬ List.Nodup [12643, 0, 0, 0] := by
  decide

/-! ## The sparse map holds distinct keys, all outside the dense range -/

theorem seenOK_mapInsert {ub : Bool} {m : List Nat} {k : Nat} (h : SeenOK ub m)
    (hk : ub = true → smallTrigram ≤ k) : SeenOK ub (mapInsert m k) := by
  unfold mapInsert
  split
  · exact h
  · rename_i hnot
    refine ⟨?_, fun hu v hv => ?_⟩
    · rw [List.nodup_append]
      refine ⟨h.1, List.nodup_singleton k, ?_⟩
      intro a ha hb
      rw [List.mem_singleton] at hb
      exact hnot (hb ▸ ha)
    · rcases List.mem_append.1 hv with hv | hv
      · exact h.2 hu v hv
      · rw [List.mem_singleton] at hv
        exact hv ▸ hk hu

theorem seenOK_route {ub : Bool} {s : GramState} (x : Nat) (h : SeenOK ub s.seen) :
    SeenOK ub (route ub x s).seen := by
  unfold route
  split
  · exact h
  · rename_i hc
    apply seenOK_mapInsert h
    intro hu
    subst hu
    simpa using hc

theorem seenOK_step {ub : Bool} {s : GramState} (c : Char) (h : SeenOK ub s.seen) :
    SeenOK ub (onGramsStep ub s c).seen := by
  unfold onGramsStep
  simp only []
  have h1 := @seenOK_route ub s c.toNat h
  generalize route ub c.toNat s = t1 at h1 ⊢
  have h2 : SeenOK ub (if t1.i > 1 then route ub (bigramOf c.toNat t1.ch1) t1 else t1).seen := by
    split
    · exact seenOK_route _ h1
    · exact h1
  generalize (if t1.i > 1 then route ub (bigramOf c.toNat t1.ch1) t1 else t1) = t2 at h2 ⊢
  show SeenOK ub (if t2.i > 2 then route ub (trigramOf c.toNat t2.ch1 t2.ch2) t2 else t2).seen
  split
  · exact seenOK_route _ h2
  · exact h2

theorem seenOK_foldl (ub : Bool) :
    ∀ (text : List Char) (s : GramState), SeenOK ub s.seen →
      SeenOK ub (text.foldl (onGramsStep ub) s).seen
  | [], _, h => h
  | c :: rest, s, h => by
    rw [List.foldl_cons]
    exact seenOK_foldl ub rest _ (seenOK_step c h)

theorem seenOK_onGrams (text : List Char) (ub : Bool) : SeenOK ub (onGrams text ub).1 := by
  unfold onGrams onGramsLoop
  apply seenOK_foldl
  exact ⟨List.nodup_nil, fun _ v hv => absurd hv (List.not_mem_nil v)⟩

/-- The number of distinct n-grams of a query is the size of the map that
`onGrams` returns. -/
theorem card_onGrams (text : List Char) (ub : Bool) :
    (onGrams text ub).1.toFinset.card = (onGrams text ub).1.length :=
  List.toFinset_card_of_nodup (seenOK_onGrams text ub).1

/-! ## The list returned by `CollectQueryNgrams` -/

/-- The returned list is the first `maximumQueryNgrams` elements of a
rearrangement of the keys of the map that `onGrams` returned for the query. -/
theorem collectQueryNgrams_eq_take {rangeMap : List Nat → List Nat} (randInt : Nat → Nat)
    {sortSliceStable : (Nat → Nat → Bool) → List Nat → List Nat}
    (hrange : ∀ m, (rangeMap m).Perm m)
    (hsort : ∀ less xs, (sortSliceStable less xs).Perm xs) (query : List Char) :
    ∃ l : List Nat, l.Perm (onGrams query false).1 ∧
      CollectQueryNgrams rangeMap randInt sortSliceStable query = l.take maximumQueryNgrams := by
  unfold CollectQueryNgrams
  simp only []
  generalize queryLess _ _ = less
  refine ⟨sortSliceStable less (rangeMap (onGrams query false).1),
    (hsort less _).trans (hrange _), ?_⟩
  split
  · rfl
  · rename_i hle
    exact (List.take_of_length_le (Nat.le_of_not_gt hle)).symm

theorem collectQueryNgrams_nil {rangeMap : List Nat → List Nat} (randInt : Nat → Nat)
    {sortSliceStable : (Nat → Nat → Bool) → List Nat → List Nat}
    (hrange : ∀ m, (rangeMap m).Perm m)
    (hsort : ∀ less xs, (sortSliceStable less xs).Perm xs) :
    CollectQueryNgrams rangeMap randInt sortSliceStable [] = [] := by
  obtain ⟨l, hl, he⟩ := collectQueryNgrams_eq_take randInt hrange hsort []
  have : l = [] := List.perm_nil.1 hl
  rw [he, this]
  rfl

/-! ## The conjunctive match -/

theorem testGrams_eq (filter : BinaryFuse8) :
    ∀ (grams : List Nat) (isMatch : Bool),
      testGrams filter grams isMatch = (grams.all filter.Contains && isMatch)
  | [], isMatch => by simp [testGrams]
  | gram :: rest, isMatch => by
    simp only [testGrams, List.all_cons]
    cases h : filter.Contains gram
    · simp
    · simp [testGrams_eq filter rest isMatch]

theorem pathsMatchingQuerySync_nil : ∀ batch : List BlobIndex, pathsMatchingQuerySync [] batch = []
  | [] => rfl
  | index :: rest => by
    unfold pathsMatchingQuerySync
    cases index.Filter with
    | none => exact pathsMatchingQuerySync_nil rest
    | some filter =>
      simp only [testGrams, List.length_nil, gt_iff_lt, lt_self_iff_false, decide_False]
      exact pathsMatchingQuerySync_nil rest

theorem flatten_map_nil {α β : Type} (f : α → List β) :
    ∀ l : List α, (∀ a ∈ l, f a = []) → (l.map f).flatten = []
  | [], _ => rfl
  | a :: rest, h => by
    rw [List.map_cons, List.flatten_cons, h a (List.mem_cons_self _ _),
      flatten_map_nil f rest (fun x hx => h x (List.mem_cons_of_mem _ hx))]
    rfl

/-! ## Theorems about the query n-gram list and the match -/

/-- C11, counterexample. For the three-codepoint query `abc` the returned list is
the three unigrams and the bigram of `bc`: no trigram is built, and `ngramArity`
is 1 on every element. -/
theorem collectQueryNgrams_abc_no_trigram :
    CollectQueryNgrams id (fun k => k) insertionSortLessSwap ['a', 'b', 'c']
      = [97, 98, 99, bigramOf 'c'.toNat 'b'.toNat] ∧
    (CollectQueryNgrams id (fun k => k) insertionSortLessSwap ['a', 'b', 'c']).map ngramArity
      = [1, 1, 1, 1] := by
  decide

/-- C11, amended. For every query of at least 4 codepoints with at most 100
distinct n-grams, `CollectQueryNgrams` returns at least one trigram value
`p[i] | (p[i-1] << 7) | (p[i-2] << 14)` with `3 ≤ i < n`, whatever the map
iteration order, the random numbers and the rearrangement made by the sort. -/
theorem collectQueryNgrams_has_trigram
    (rangeMap : List Nat → List Nat) (randInt : Nat → Nat)
    (sortSliceStable : (Nat → Nat → Bool) → List Nat → List Nat)
    (hrange : ∀ m, (rangeMap m).Perm m)
    (hsort : ∀ less xs, (sortSliceStable less xs).Perm xs)
    (query : List Char) (h4 : 4 ≤ query.length)
    (h100 : (onGrams query false).1.toFinset.card ≤ 100) :
    ∃ i, 3 ≤ i ∧ i < query.length ∧
      (cp query i ||| (cp query (i - 1) <<< 7) ||| (cp query (i - 2) <<< 14))
        ∈ CollectQueryNgrams rangeMap randInt sortSliceStable query := by
  obtain ⟨l, hl, he⟩ := collectQueryNgrams_eq_take randInt hrange hsort query
  rw [card_onGrams] at h100
  have hlen : l.length ≤ maximumQueryNgrams := by
    rw [hl.length_eq]
    exact h100
  refine ⟨3, le_refl 3, h4, ?_⟩
  rw [he, List.take_of_length_le hlen]
  apply hl.symm.subset
  rw [mem_onGrams_false]
  exact Or.inr (Or.inr ⟨3, le_refl 3, h4, rfl⟩)

/-- Witness of C11 (amended): the query `hello`. -/
theorem collectQueryNgrams_has_trigram_witness :
    (∀ m : List Nat, (List.reverse m).Perm m) ∧
    (∀ less xs, (insertionSortLessSwap less xs).Perm xs) ∧
    4 ≤ "hello".toList.length ∧
    (onGrams "hello".toList false).1.toFinset.card ≤ 100 ∧
    ∃ i, 3 ≤ i ∧ i < "hello".toList.length ∧
      (cp "hello".toList i ||| (cp "hello".toList (i - 1) <<< 7)
          ||| (cp "hello".toList (i - 2) <<< 14))
        ∈ CollectQueryNgrams List.reverse (fun k => (3 * k + 1) % 4) insertionSortLessSwap
            "hello".toList :=
  ⟨List.reverse_perm, insertionSortLessSwap_perm, by decide, by decide,
    collectQueryNgrams_has_trigram List.reverse (fun k => (3 * k + 1) % 4) insertionSortLessSwap
      List.reverse_perm insertionSortLessSwap_perm "hello".toList (by decide) (by decide)⟩

/-- C12. For every query, the length of the list returned by `CollectQueryNgrams`
is the smaller of 100 and the number of distinct n-grams in the map returned by
`onGrams(query, false)`; in particular it is at most 100. -/
theorem collectQueryNgrams_length
    (rangeMap : List Nat → List Nat) (randInt : Nat → Nat)
    (sortSliceStable : (Nat → Nat → Bool) → List Nat → List Nat)
    (hrange : ∀ m, (rangeMap m).Perm m)
    (hsort : ∀ less xs, (sortSliceStable less xs).Perm xs) (query : List Char) :
    (CollectQueryNgrams rangeMap randInt sortSliceStable query).length
        = min 100 (onGrams query false).1.toFinset.card ∧
    (CollectQueryNgrams rangeMap randInt sortSliceStable query).length ≤ 100 := by
  obtain ⟨l, hl, he⟩ := collectQueryNgrams_eq_take randInt hrange hsort query
  have hlen : (CollectQueryNgrams rangeMap randInt sortSliceStable query).length
      = min 100 (onGrams query false).1.toFinset.card := by
    rw [he, List.length_take, hl.length_eq, card_onGrams]
    rfl
  exact ⟨hlen, hlen ▸ Nat.min_le_left _ _⟩

/-- Witness of C12: the query `hello world`, which has 25 distinct n-grams. -/
theorem collectQueryNgrams_length_witness :
    (∀ m : List Nat, (id m).Perm m) ∧
    (∀ less xs, (insertionSortLessSwap less xs).Perm xs) ∧
    (CollectQueryNgrams id (fun k => (5 * k + 2) % 11) insertionSortLessSwap
        "hello world".toList).length
      = min 100 (onGrams "hello world".toList false).1.toFinset.card ∧
    (CollectQueryNgrams id (fun k => (5 * k + 2) % 11) insertionSortLessSwap
        "hello world".toList).length ≤ 100 :=
  ⟨fun m => List.Perm.refl m, insertionSortLessSwap_perm,
    collectQueryNgrams_length id (fun k => (5 * k + 2) % 11) insertionSortLessSwap
      (fun m => List.Perm.refl m) insertionSortLessSwap_perm "hello world".toList⟩

/-- Measured with `ngramArity`, the truncation keeps the highest arity: for every
query with more than 100 distinct n-grams the returned list contains an n-gram
whose decoded arity is the highest among all n-grams of the query (every n-gram
decodes to arity 1). -/
theorem collectQueryNgrams_keeps_highest_arity
    (rangeMap : List Nat → List Nat) (randInt : Nat → Nat)
    (sortSliceStable : (Nat → Nat → Bool) → List Nat → List Nat)
    (hrange : ∀ m, (rangeMap m).Perm m)
    (hsort : ∀ less xs, (sortSliceStable less xs).Perm xs)
    (query : List Char) (hmany : 100 < (onGrams query false).1.toFinset.card) :
    ∃ v ∈ CollectQueryNgrams rangeMap randInt sortSliceStable query,
      ∀ w ∈ (onGrams query false).1, ngramArity w ≤ ngramArity v := by
  obtain ⟨l, hl, he⟩ := collectQueryNgrams_eq_take randInt hrange hsort query
  rw [card_onGrams, ← hl.length_eq] at hmany
  cases l with
  | nil => simp at hmany
  | cons v rest =>
    refine ⟨v, ?_, fun w hw => ?_⟩
    · rw [he]
      exact List.mem_cons_self _ _
    · have hv : v ∈ (onGrams query false).1 := hl.subset (List.mem_cons_self _ _)
      rw [mem_onGrams_false] at hv hw
      rw [ngramArity_of_refNgram hv, ngramArity_of_refNgram hw]

/-- C14. For every n-gram list and every blob batch, the paths emitted by
`pathsMatchingQuerySync` are, in batch order and once per blob, the paths of the
blobs whose filter is present, for which the n-gram list is non-empty and whose
filter contains every n-gram of the list; a blob without a filter is not
emitted. -/
theorem pathsMatchingQuerySync_eq_filter (grams : List Nat) (batch : List BlobIndex) :
    pathsMatchingQuerySync grams batch
      = (batch.filter (fun index =>
          match index.Filter with
          | none => false
          | some filter => decide (grams ≠ []) && grams.all filter.Contains)).map
        (fun index => index.Path) := by
  induction batch with
  | nil => rfl
  | cons index rest ih =>
    obtain ⟨filterOpt, path⟩ := index
    unfold pathsMatchingQuerySync
    cases filterOpt with
    | none => simpa using ih
    | some filter =>
      have hlen : decide (grams.length > 0) = decide (grams ≠ []) := by
        cases grams <;> simp
      simp only [testGrams_eq, hlen, List.filter_cons]
      by_cases hm : (grams.all filter.Contains && decide (grams ≠ [])) = true
      · have hm' : (decide (grams ≠ []) && grams.all filter.Contains) = true := by
          rw [Bool.and_comm]; exact hm
        rw [if_pos hm, if_pos hm', List.map_cons, ih]
      · have hm' : ¬ (decide (grams ≠ []) && grams.all filter.Contains) = true := by
          rw [Bool.and_comm]; exact hm
        rw [if_neg hm, if_neg hm', ih]

/-- C15. For every repo index, the empty query matches nothing:
`PathsMatchingQuerySync("")` returns no path, and the channel returned by
`PathsMatchingQuery("")` is empty, whatever the order in which the batch
goroutines send. -/
theorem empty_query_matches_nothing
    (rangeMap : List Nat → List Nat) (randInt : Nat → Nat)
    (sortSliceStable : (Nat → Nat → Bool) → List Nat → List Nat)
    (schedule : List (List String) → List String)
    (hrange : ∀ m, (rangeMap m).Perm m)
    (hsort : ∀ less xs, (sortSliceStable less xs).Perm xs)
    (hsched : ∀ outs, (schedule outs).Perm outs.flatten)
    (r : RepoIndex) :
    PathsMatchingQuerySync rangeMap randInt sortSliceStable r [] = [] ∧
    PathsMatchingQuery rangeMap randInt sortSliceStable schedule r [] = [] := by
  have hg := collectQueryNgrams_nil randInt hrange hsort
  constructor
  · unfold PathsMatchingQuerySync
    simp only []
    rw [hg]
    exact pathsMatchingQuerySync_nil _
  · unfold PathsMatchingQuery
    simp only []
    rw [hg]
    apply List.perm_nil.1
    refine (hsched _).trans ?_
    rw [flatten_map_nil _ _ (fun batch _ => pathsMatchingQuerySync_nil batch)]

set_option maxRecDepth 100000 in
/-- A query of 40 distinct codepoints has 115 distinct n-grams, more than 100, and
the preceding theorem applies to it. -/
theorem collectQueryNgrams_keeps_highest_arity_witness :
    (∀ m : List Nat, (id m).Perm m) ∧
    (∀ less xs, (insertionSortLessSwap less xs).Perm xs) ∧
    100 < (onGrams query40 false).1.toFinset.card ∧
    ∃ v ∈ CollectQueryNgrams id (fun k => k) insertionSortLessSwap query40,
      ∀ w ∈ (onGrams query40 false).1, ngramArity w ≤ ngramArity v :=
  ⟨fun m => List.Perm.refl m, insertionSortLessSwap_perm, by decide,
    collectQueryNgrams_keeps_highest_arity id (fun k => k) insertionSortLessSwap
      (fun m => List.Perm.refl m) insertionSortLessSwap_perm query40 (by decide)⟩

/-- Witness of C15: an index with one blob whose filter contains every key. -/
theorem empty_query_matches_nothing_witness :
    (∀ m : List Nat, (id m).Perm m) ∧
    (∀ less xs, (insertionSortLessSwap less xs).Perm xs) ∧
    (∀ outs : List (List String), (List.flatten outs).Perm outs.flatten) ∧
    PathsMatchingQuerySync id (fun k => k) insertionSortLessSwap
      { Dir := "", Blobs := [{ Filter := some { Contains := fun _ => true }, Path := "a.txt" }],
        FS := memFS [] } [] = [] ∧
    PathsMatchingQuery id (fun k => k) insertionSortLessSwap List.flatten
      { Dir := "", Blobs := [{ Filter := some { Contains := fun _ => true }, Path := "a.txt" }],
        FS := memFS [] } [] = [] :=
  ⟨fun m => List.Perm.refl m, insertionSortLessSwap_perm, fun _ => List.Perm.refl _,
    empty_query_matches_nothing id (fun k => k) insertionSortLessSwap List.flatten
      (fun m => List.Perm.refl m) insertionSortLessSwap_perm (fun _ => List.Perm.refl _)
      { Dir := "", Blobs := [{ Filter := some { Contains := fun _ => true }, Path := "a.txt" }],
        FS := memFS [] }⟩

theorem smallKeysFirst_perm (m : List Nat) : (smallKeysFirst m).Perm m :=
  List.filter_append_perm _ m

set_option maxRecDepth 100000 in
/-- C13, evaluated. The truncation can drop every trigram: for a query of 51
distinct ASCII codepoints (148 distinct n-grams), when the map is visited small
keys first and the random numbers increase with the position, all 100 returned
values are below `2 ^ 14`, that is, unigrams and bigrams, although the query has
48 trigrams, all of them at least `2 ^ 14`. -/
theorem truncation_drops_trigrams :
    (CollectQueryNgrams smallKeysFirst (fun k => k) insertionSortLessSwap query51).length = 100 ∧
    (CollectQueryNgrams smallKeysFirst (fun k => k) insertionSortLessSwap query51).all
      (fun v => decide (v < 2 ^ 14)) = true ∧
    (onGrams query51 false).1.length = 148 ∧
    ((onGrams query51 false).1.filter (fun v => decide (2 ^ 14 ≤ v))).length = 48 ∧
    trigramOf (cp query51 3) (cp query51 2) (cp query51 1) ∈ (onGrams query51 false).1 ∧
    2 ^ 14 ≤ trigramOf (cp query51 3) (cp query51 2) (cp query51 1) := by
  decide

/-! ## The frame of a blob index -/

theorem length_putUint64BE (v : Nat) : (putUint64BE v).length = 8 := rfl

theorem uint8_toNat_ofNat (x : Nat) : (UInt8.ofNat x).toNat = x % 256 := rfl

theorem uint64BE_putUint64BE {v : Nat} (h : v < 2 ^ 64) : uint64BE (putUint64BE v) = v := by
  simp only [uint64BE, putUint64BE, List.foldl_cons, List.foldl_nil, uint8_toNat_ofNat,
    Nat.shiftRight_eq_div_pow]
  omega

/-- What `WriteTo` does with a writer that accepts all bytes. -/
theorem writeTo_acceptAll (gobEncode : BlobIndex → List UInt8 × Option String) (b : BlobIndex)
    (w : Writer) (hacc : ∀ n k, w.accept n k = (k, false))
    (hlen : (gobEncode b).1.length < 2 ^ 64) :
    (WriteTo gobEncode b w).w.written
        = w.written ++ putUint64BE (gobEncode b).1.length ++ (gobEncode b).1 ∧
    (WriteTo gobEncode b w).n = 8 + (gobEncode b).1.length ∧
    (WriteTo gobEncode b w).err = none := by
  have hmod : (gobEncode b).1.length % u64 = (gobEncode b).1.length := Nat.mod_eq_of_lt hlen
  simp [WriteTo, binaryWriteUint64, Writer.Write, hacc, hmod]

/-- What `ReadFrom` does with a stream that holds one frame and hands over the
whole payload in one `Read` call. -/
theorem readFrom_frame (gobDecode : List UInt8 → Except String BlobIndex) (recv : BlobIndex)
    (stream : Reader) (payload : List UInt8) (other : BlobIndex)
    (hdec : gobDecode payload = .ok other) (hne : payload ≠ [])
    (hlen : payload.length < 2 ^ 63)
    (hbytes : stream.pending = putUint64BE payload.length ++ payload)
    (hfull : ∀ n k, 0 < k → k ≤ n →
      k ≤ (stream.deliver n k).1 ∧ (stream.deliver n k).2 = false) :
    ReadFrom gobDecode recv stream
      = some { n := 8 + payload.length, err := none,
               b := { recv with Path := other.Path, Filter := other.Filter },
               stream := { stream with pending := [] } } := by
  have hpos : 0 < payload.length := List.length_pos.2 hne
  have h8 : 8 ≤ stream.pending.length := by
    rw [hbytes, List.length_append, length_putUint64BE]; omega
  have hhdr : binaryReadUint64 stream
      = (.ok payload.length, { stream with pending := payload }) := by
    unfold binaryReadUint64
    rw [if_pos h8, hbytes, List.take_left' (length_putUint64BE _),
      List.drop_left' (length_putUint64BE _), uint64BE_putUint64BE (by omega)]
  obtain ⟨hd1, hd2⟩ := hfull payload.length payload.length hpos (le_refl _)
  have hread : Reader.Read { stream with pending := payload } payload.length
      = (payload, none, { stream with pending := [] }) := by
    simp only [Reader.Read, hd2, Nat.min_self, Nat.min_eq_right hd1, List.take_length,
      List.drop_length]
    rfl
  unfold ReadFrom
  rw [hhdr]
  simp only []
  rw [if_neg (by omega), hread]
  simp only [Nat.sub_self, List.replicate_zero, List.append_nil]
  have hmod : payload.length % u64 = payload.length :=
    Nat.mod_eq_of_lt (by unfold u64; omega)
  simp [hmod, hdec]

/-- `ReadFrom` returns an error, and leaves the receiver as it was, on every
stream that ends before a complete frame whose declared length is below
`2 ^ 63`, however the stream answers the `Read` call. -/
theorem readFrom_truncated_error (gobDecode : List UInt8 → Except String BlobIndex)
    (recv : BlobIndex) (stream : Reader)
    (h : stream.pending.length < 8 ∨
      (uint64BE (stream.pending.take 8) < 2 ^ 63 ∧
        stream.pending.length - 8 < uint64BE (stream.pending.take 8))) :
    ∃ res, ReadFrom gobDecode recv stream = some res ∧ res.err ≠ none ∧ res.b = recv := by
  by_cases h8 : 8 ≤ stream.pending.length
  · have hL : uint64BE (stream.pending.take 8) < 2 ^ 63 ∧
        stream.pending.length - 8 < uint64BE (stream.pending.take 8) := by
      rcases h with h | h
      · omega
      · exact h
    obtain ⟨hlt, hshort⟩ := hL
    unfold ReadFrom binaryReadUint64
    rw [if_pos h8]
    simp only []
    rw [if_neg (by omega)]
    generalize uint64BE (stream.pending.take 8) = L at hlt hshort
    have hn : (Reader.Read { stream with pending := stream.pending.drop 8 } L).1.length < L := by
      simp only [Reader.Read, List.length_take, List.length_drop]
      omega
    generalize Reader.Read { stream with pending := stream.pending.drop 8 } L = res at hn
    obtain ⟨got, err, rest⟩ := res
    simp only [] at hn ⊢
    cases err with
    | some e => exact ⟨_, rfl, by simp, rfl⟩
    | none =>
      have hmod : got.length % u64 ≠ L := by
        rw [Nat.mod_eq_of_lt (by unfold u64; omega)]
        omega
      simp only []
      rw [if_pos hmod]
      exact ⟨_, rfl, by simp, rfl⟩
  · unfold ReadFrom binaryReadUint64
    rw [if_neg h8]
    exact ⟨_, rfl, by simp, rfl⟩

/-! ## Theorems about the framed serialization -/

/-- A stream that does not hand over the payload in one `Read` call: the frame
written for the blob index with path `a.txt` (on which the path codec is
lossless) is read back through a reader that hands over one byte per `Read` call,
and `ReadFrom` returns an error after the 8 header bytes and leaves the receiver
unchanged. The payload is read with a single `stream.Read`, the header with
`binary.Read`, which fills its buffer. -/
theorem readFrom_one_byte_reader_fails :
    pathDecode (pathEncode { Filter := none, Path := "a.txt" }).1
      = .ok { Filter := none, Path := "a.txt" } ∧
    (WriteTo pathEncode { Filter := none, Path := "a.txt" } (acceptAll [])).w.written
      = [0, 0, 0, 0, 0, 0, 0, 5, 97, 46, 116, 120, 116] ∧
    (ReadFrom pathDecode { Filter := none, Path := "" }
        (oneByteReader
          (WriteTo pathEncode { Filter := none, Path := "a.txt" } (acceptAll [])).w.written)).map
      (fun res => (res.n, res.err.isSome, res.b.Path)) = some (8, true, "") :=
  ⟨rfl, by decide, by decide⟩

/-- Framed round trip over any stream that holds exactly the bytes produced by
`b.WriteTo` and hands over in one `Read` call all the bytes asked for when they
are there: `ReadFrom` succeeds, sets the receiver to the same `Path` and the same
`Filter`, and returns the byte count that `WriteTo` returned. -/
theorem readFrom_writeTo_roundtrip
    (gobEncode : BlobIndex → List UInt8 × Option String)
    (gobDecode : List UInt8 → Except String BlobIndex)
    (b recv : BlobIndex) (stream : Reader)
    (hcodec : gobDecode (gobEncode b).1 = .ok b)
    (hne : (gobEncode b).1 ≠ [])
    (hlen : (gobEncode b).1.length < 2 ^ 63)
    (hbytes : stream.pending = (WriteTo gobEncode b (acceptAll [])).w.written)
    (hfull : ∀ n k, 0 < k → k ≤ n →
      k ≤ (stream.deliver n k).1 ∧ (stream.deliver n k).2 = false) :
    ∃ res, ReadFrom gobDecode recv stream = some res ∧ res.err = none ∧
      res.b.Path = b.Path ∧ res.b.Filter = b.Filter ∧
      res.n = (WriteTo gobEncode b (acceptAll [])).n := by
  obtain ⟨hw, hn, _⟩ := writeTo_acceptAll gobEncode b (acceptAll []) (fun _ _ => rfl)
    (by omega)
  rw [hw] at hbytes
  have hbytes' : stream.pending = putUint64BE (gobEncode b).1.length ++ (gobEncode b).1 := by
    rw [hbytes]; rfl
  exact ⟨_, readFrom_frame gobDecode recv stream _ b hcodec hne hlen hbytes' hfull,
    rfl, rfl, rfl, hn.symm⟩

/-- The preceding theorem at the blob index with path `a.txt`, the path codec and
a reader over the byte slice of the frame. -/
theorem readFrom_writeTo_roundtrip_witness :
    pathDecode (pathEncode { Filter := none, Path := "a.txt" }).1
      = .ok { Filter := none, Path := "a.txt" } ∧
    (pathEncode { Filter := none, Path := "a.txt" }).1 ≠ [] ∧
    (pathEncode { Filter := none, Path := "a.txt" }).1.length < 2 ^ 63 ∧
    (sliceReader
        (WriteTo pathEncode { Filter := none, Path := "a.txt" } (acceptAll [])).w.written).pending
      = (WriteTo pathEncode { Filter := none, Path := "a.txt" } (acceptAll [])).w.written ∧
    (∀ n k, 0 < k → k ≤ n →
      k ≤ ((sliceReader
          (WriteTo pathEncode { Filter := none, Path := "a.txt" }
            (acceptAll [])).w.written).deliver n k).1 ∧
      ((sliceReader
          (WriteTo pathEncode { Filter := none, Path := "a.txt" }
            (acceptAll [])).w.written).deliver n k).2 = false) ∧
    ∃ res, ReadFrom pathDecode { Filter := none, Path := "" }
        (sliceReader
          (WriteTo pathEncode { Filter := none, Path := "a.txt" } (acceptAll [])).w.written)
        = some res ∧ res.err = none ∧
      res.b.Path = "a.txt" ∧ res.b.Filter = none ∧
      res.n = (WriteTo pathEncode { Filter := none, Path := "a.txt" } (acceptAll [])).n :=
  ⟨rfl, by decide, by decide, rfl,
    fun n k hk hkn => ⟨le_refl k, by simp [sliceReader]; omega⟩,
    readFrom_writeTo_roundtrip pathEncode pathDecode { Filter := none, Path := "a.txt" }
      { Filter := none, Path := "" } _ rfl (by decide) (by decide) rfl
      (fun n k hk hkn => ⟨le_refl k, by simp [sliceReader]; omega⟩)⟩

/-- C16. Framed round trip: for every blob index `b` on which the payload codec
is lossless (a gob message is never empty), calling `ReadFrom` on exactly the
bytes produced by `b.WriteTo`, held by an in-memory reader, succeeds, yields a
blob index with the same `Path` and the same `Filter`, and returns the byte count
that `WriteTo` returned. -/
theorem readFrom_writeTo_bytes
    (gobEncode : BlobIndex → List UInt8 × Option String)
    (gobDecode : List UInt8 → Except String BlobIndex)
    (b recv : BlobIndex)
    (hcodec : gobDecode (gobEncode b).1 = .ok b)
    (hne : (gobEncode b).1 ≠ [])
    (hlen : (gobEncode b).1.length < 2 ^ 63) :
    ∃ res, ReadFrom gobDecode recv
        (sliceReader (WriteTo gobEncode b (acceptAll [])).w.written) = some res ∧
      res.err = none ∧ res.b.Path = b.Path ∧ res.b.Filter = b.Filter ∧
      res.n = (WriteTo gobEncode b (acceptAll [])).n := by
  obtain ⟨hw, hn, _⟩ := writeTo_acceptAll gobEncode b (acceptAll []) (fun _ _ => rfl)
    (by omega)
  have hbytes : (sliceReader (WriteTo gobEncode b (acceptAll [])).w.written).pending
      = putUint64BE (gobEncode b).1.length ++ (gobEncode b).1 := by
    show (WriteTo gobEncode b (acceptAll [])).w.written = _
    rw [hw]
    rfl
  have hfull : ∀ n k, 0 < k → k ≤ n →
      k ≤ ((sliceReader (WriteTo gobEncode b (acceptAll [])).w.written).deliver n k).1 ∧
      ((sliceReader (WriteTo gobEncode b (acceptAll [])).w.written).deliver n k).2 = false := by
    intro n k hk hkn
    refine ⟨le_refl k, ?_⟩
    simp [sliceReader]
    omega
  exact ⟨_, readFrom_frame gobDecode recv _ _ b hcodec hne hlen hbytes hfull,
    rfl, rfl, rfl, hn.symm⟩

/-- Witness of C16: the blob index with path `a.txt` and the path codec, read
into an empty receiver. -/
theorem readFrom_writeTo_bytes_witness :
    pathDecode (pathEncode { Filter := none, Path := "a.txt" }).1
      = .ok { Filter := none, Path := "a.txt" } ∧
    (pathEncode { Filter := none, Path := "a.txt" }).1 ≠ [] ∧
    (pathEncode { Filter := none, Path := "a.txt" }).1.length < 2 ^ 63 ∧
    ∃ res, ReadFrom pathDecode { Filter := none, Path := "" }
        (sliceReader
          (WriteTo pathEncode { Filter := none, Path := "a.txt" } (acceptAll [])).w.written)
        = some res ∧ res.err = none ∧
      res.b.Path = "a.txt" ∧ res.b.Filter = none ∧
      res.n = (WriteTo pathEncode { Filter := none, Path := "a.txt" } (acceptAll [])).n :=
  ⟨rfl, by decide, by decide,
    readFrom_writeTo_bytes pathEncode pathDecode { Filter := none, Path := "a.txt" }
      { Filter := none, Path := "" } rfl (by decide) (by decide)⟩

/-- C17. Frame layout: for every blob index and every writer that accepts all
bytes, `WriteTo` appends to the writer 8 bytes that hold the payload length `L`
as an unsigned 64-bit big-endian integer, followed by the `L` payload bytes, and
returns the count `8 + L` with a nil error. -/
theorem writeTo_layout (gobEncode : BlobIndex → List UInt8 × Option String) (b : BlobIndex)
    (w : Writer) (hacc : ∀ n k, w.accept n k = (k, false))
    (hlen : (gobEncode b).1.length < 2 ^ 64) :
    (WriteTo gobEncode b w).w.written
        = w.written ++ putUint64BE (gobEncode b).1.length ++ (gobEncode b).1 ∧
    (putUint64BE (gobEncode b).1.length).length = 8 ∧
    uint64BE (putUint64BE (gobEncode b).1.length) = (gobEncode b).1.length ∧
    (WriteTo gobEncode b w).n = 8 + (gobEncode b).1.length ∧
    (WriteTo gobEncode b w).err = none := by
  obtain ⟨hw, hn, he⟩ := writeTo_acceptAll gobEncode b w hacc hlen
  exact ⟨hw, rfl, uint64BE_putUint64BE hlen, hn, he⟩

/-- Witness of C17: the blob index with path `a.txt` written after two bytes that
the writer already holds. -/
theorem writeTo_layout_witness :
    (∀ n k, (acceptAll [1, 2]).accept n k = (k, false)) ∧
    (pathEncode { Filter := none, Path := "a.txt" }).1.length < 2 ^ 64 ∧
    (WriteTo pathEncode { Filter := none, Path := "a.txt" } (acceptAll [1, 2])).w.written
        = (acceptAll [1, 2]).written
          ++ putUint64BE (pathEncode { Filter := none, Path := "a.txt" }).1.length
          ++ (pathEncode { Filter := none, Path := "a.txt" }).1 ∧
    (putUint64BE (pathEncode { Filter := none, Path := "a.txt" }).1.length).length = 8 ∧
    uint64BE (putUint64BE (pathEncode { Filter := none, Path := "a.txt" }).1.length)
      = (pathEncode { Filter := none, Path := "a.txt" }).1.length ∧
    (WriteTo pathEncode { Filter := none, Path := "a.txt" } (acceptAll [1, 2])).n
      = 8 + (pathEncode { Filter := none, Path := "a.txt" }).1.length ∧
    (WriteTo pathEncode { Filter := none, Path := "a.txt" } (acceptAll [1, 2])).err = none :=
  ⟨fun _ _ => rfl, by decide,
    writeTo_layout pathEncode { Filter := none, Path := "a.txt" } (acceptAll [1, 2])
      (fun _ _ => rfl) (by decide)⟩

/-- C18, evaluated. A stream of 8 bytes whose header declares the payload length
`2 ^ 63` and that holds no payload byte ends before a complete frame; on it
`ReadFrom` does not return: `make([]byte, length)` panics. -/
theorem readFrom_huge_length_panics :
    uint64BE [0x80, 0, 0, 0, 0, 0, 0, 0] = 2 ^ 63 ∧
    (ReadFrom pathDecode { Filter := none, Path := "" }
      (sliceReader [0x80, 0, 0, 0, 0, 0, 0, 0])).isNone = true := by
  decide

/-! ## The key array is always built -/

theorem copySparse_ok : ∀ (l keys : List Nat) (i : Nat), i + l.length ≤ keys.length →
    ∃ keys', copySparse l (keys, i) = some (keys', i + l.length) ∧ keys'.length = keys.length
  | [], keys, i, _ => ⟨keys, rfl, rfl⟩
  | hash :: rest, keys, i, h => by
    have hi : i < keys.length := by
      rw [List.length_cons] at h; omega
    have hlen : (keys.set i hash).length = keys.length := List.length_set _ _ _
    obtain ⟨keys', hk, hl⟩ := copySparse_ok rest (keys.set i hash) (i + 1)
      (by rw [hlen, List.length_cons] at *; omega)
    refine ⟨keys', ?_, hl.trans hlen⟩
    simp only [copySparse, store, if_pos hi, hk, List.length_cons]
    congr 2
    omega

theorem copyDense_ok : ∀ (l keys : List Nat) (i : Nat), (l = [] ∨ i < keys.length) →
    ∃ keys', copyDense l keys i = some keys'
  | [], keys, _, _ => ⟨keys, rfl⟩
  | hash :: rest, keys, i, h => by
    have hi : i < keys.length := by
      rcases h with h | h
      · exact absurd h (List.cons_ne_nil _ _)
      · exact h
    have hlen : (keys.set i (hash % u64)).length = keys.length := List.length_set _ _ _
    obtain ⟨keys', hk⟩ := copyDense_ok rest (keys.set i (hash % u64)) i
      (Or.inr (by rw [hlen]; exact hi))
    exact ⟨keys', by simp only [copyDense, store, if_pos hi, hk]⟩

/-- With the dense bitset in use, a text that is not empty sets at least one bit:
its first codepoint is below `smallTrigram`. -/
theorem dense_ne_nil {text : List Char} (hne : text ≠ []) :
    ∃ d, (onGrams text true).2 = some d ∧ d ≠ [] := by
  obtain ⟨d, hd⟩ := onGrams_true_snd text
  refine ⟨d, hd, ?_⟩
  have hpos : 0 < text.length := List.length_pos.2 hne
  have hmem : cp text 0 ∈ ngramUnion (onGrams text true) :=
    (mem_ngramUnion_onGrams text true _).2 (Or.inl ⟨0, hpos, rfl⟩)
  unfold ngramUnion at hmem
  rw [hd] at hmem
  rcases List.mem_append.1 hmem with h | h
  · have hge := (seenOK_onGrams text true).2 rfl _ h
    have hlt : cp text 0 < smallTrigram := cp_lt text 0
    omega
  · exact List.ne_nil_of_mem h

/-- The construction of the key array never panics. -/
theorem fileKeys_isSome {rangeMap : List Nat → List Nat}
    (hrange : ∀ m, (rangeMap m).Perm m) (text : List Char) :
    ∃ keys, fileKeys rangeMap text = some keys := by
  unfold fileKeys
  cases text with
  | nil =>
    have h0 : onGrams [] true = ([], some []) := rfl
    have hr : rangeMap [] = [] := List.perm_nil.1 (hrange [])
    rw [h0]
    simp only [hr]
    exact ⟨_, rfl⟩
  | cons c rest =>
    obtain ⟨d, hd, hdne⟩ := dense_ne_nil (List.cons_ne_nil c rest)
    generalize onGrams (c :: rest) true = r at hd
    obtain ⟨seen, dense⟩ := r
    simp only [] at hd
    subst hd
    simp only []
    have hdpos : 0 < d.length := List.length_pos.2 hdne
    obtain ⟨keys', hk, hl⟩ := copySparse_ok (rangeMap seen)
      (List.replicate (seen.length + BitSet.count d) 0) 0
      (by rw [(hrange seen).length_eq, List.length_replicate]; omega)
    rw [hk]
    simp only []
    apply copyDense_ok
    right
    rw [hl, List.length_replicate, (hrange seen).length_eq]
    unfold BitSet.count
    omega

theorem indexFile_isSome (fs : FileSystem) (isBinary : List UInt8 → Bool)
    (populateBinaryFuse8 : List Nat → Except String BinaryFuse8)
    {rangeMap : List Nat → List Nat} (hrange : ∀ m, (rangeMap m).Perm m) (filename : String) :
    ∃ sent, indexFile fs isBinary populateBinaryFuse8 rangeMap filename = some sent := by
  unfold indexFile
  cases fs.ReadRelativeFilename filename with
  | error e => exact ⟨_, rfl⟩
  | ok textBytes =>
    simp only []
    split
    · exact ⟨_, rfl⟩
    · split
      · exact ⟨_, rfl⟩
      · split
        · exact ⟨_, rfl⟩
        · obtain ⟨keys, hk⟩ := fileKeys_isSome hrange (runes textBytes)
          rw [hk]
          simp only []
          cases populateBinaryFuse8 keys with
          | error e => exact ⟨_, rfl⟩
          | ok filter => exact ⟨_, rfl⟩

/-- A file yields a blob index exactly when it is read, admitted and its filter is
built; the blob index carries the file name. -/
theorem indexFile_eq_some_iff (fs : FileSystem) (isBinary : List UInt8 → Bool)
    (populateBinaryFuse8 : List Nat → Except String BinaryFuse8)
    (rangeMap : List Nat → List Nat) (filename : String) (blob : BlobIndex) :
    indexFile fs isBinary populateBinaryFuse8 rangeMap filename = some (some blob) ↔
      ∃ textBytes, fs.ReadRelativeFilename filename = .ok textBytes ∧
        1 ≤ textBytes.length ∧ textBytes.length ≤ 1048576 ∧ isBinary textBytes = false ∧
        ∃ keys filter, fileKeys rangeMap (runes textBytes) = some keys ∧
          populateBinaryFuse8 keys = .ok filter ∧
          blob = { Path := filename, Filter := some filter } := by
  have hmax : maxFileSize = 1048576 := by decide
  unfold indexFile
  cases hr : fs.ReadRelativeFilename filename with
  | error e => simp
  | ok textBytes =>
    simp only [Except.ok.injEq, exists_eq_left']
    by_cases h0 : textBytes.length = 0
    · simp [h0]
    · by_cases h1 : textBytes.length > maxFileSize
      · rw [if_neg h0, if_pos h1]
        constructor
        · intro h; simp at h
        · rintro ⟨_, hle, _⟩
          omega
      · by_cases h2 : isBinary textBytes = true
        · rw [if_neg h0, if_neg h1, if_pos h2]
          simp [h2]
        · rw [if_neg h0, if_neg h1, if_neg h2]
          have hpre : 1 ≤ textBytes.length ∧ textBytes.length ≤ 1048576 ∧
              isBinary textBytes = false := ⟨by omega, by omega, by simpa using h2⟩
          cases hk : fileKeys rangeMap (runes textBytes) with
          | none => simp
          | some keys =>
            simp only []
            cases hp : populateBinaryFuse8 keys with
            | error e => simp [hp]
            | ok filter =>
              simp only [Option.some.injEq]
              constructor
              · intro h
                exact ⟨hpre.1, hpre.2.1, hpre.2.2, keys, filter, rfl, hp, h.symm⟩
              · rintro ⟨_, _, _, keys', filter', hk', hp', h⟩
                subst hk'
                rw [hp] at hp'
                cases hp'
                exact h.symm

/-- The channel of `repoIndexes` holds, file by file, what each file sends. -/
theorem repoIndexes_eq (fs : FileSystem) (isBinary : List UInt8 → Bool)
    (populateBinaryFuse8 : List Nat → Except String BinaryFuse8)
    {rangeMap : List Nat → List Nat} (hrange : ∀ m, (rangeMap m).Perm m) :
    ∀ filenames : List String,
      repoIndexes fs isBinary populateBinaryFuse8 rangeMap filenames
        = some (filenames.filterMap
            (fun f => (indexFile fs isBinary populateBinaryFuse8 rangeMap f).join))
  | [] => rfl
  | filename :: rest => by
    obtain ⟨sent, hs⟩ := indexFile_isSome fs isBinary populateBinaryFuse8 hrange filename
    simp only [repoIndexes, hs, repoIndexes_eq fs isBinary populateBinaryFuse8 hrange rest]
    cases sent with
    | none =>
      rw [List.filterMap_cons_none (by rw [hs]; rfl)]
      rfl
    | some blob =>
      rw [List.filterMap_cons_some (by rw [hs]; rfl)]
      rfl

/-- A blob index with a given path is on the channel exactly when a file of that
name in the listing yields one. -/
theorem exists_blob_path_iff (fs : FileSystem) (isBinary : List UInt8 → Bool)
    (populateBinaryFuse8 : List Nat → Except String BinaryFuse8)
    (rangeMap : List Nat → List Nat) (filenames : List String) (filename : String)
    (hmem : filename ∈ filenames) :
    (∃ blob ∈ filenames.filterMap
        (fun f => (indexFile fs isBinary populateBinaryFuse8 rangeMap f).join),
      blob.Path = filename) ↔
    ∃ blob, indexFile fs isBinary populateBinaryFuse8 rangeMap filename = some (some blob) := by
  constructor
  · rintro ⟨blob, hb, hp⟩
    obtain ⟨f, _, hf⟩ := List.mem_filterMap.1 hb
    rw [Option.join_eq_some] at hf
    obtain ⟨_, _, _, _, _, _, _, _, _, hblob⟩ :=
      (indexFile_eq_some_iff fs isBinary populateBinaryFuse8 rangeMap f blob).1 hf
    have : f = filename := by rw [← hp, hblob]
    exact ⟨blob, this ▸ hf⟩
  · rintro ⟨blob, hb⟩
    obtain ⟨_, _, _, _, _, _, _, _, _, hblob⟩ :=
      (indexFile_eq_some_iff fs isBinary populateBinaryFuse8 rangeMap filename blob).1 hb
    exact ⟨blob, List.mem_filterMap.2 ⟨filename, hmem, Option.join_eq_some.2 hb⟩,
      by rw [hblob]⟩

/-! ## Theorems about the repository indexer -/

/-- C19. File admission boundary: `repoIndexes` always returns, and a file of the
listing yields a blob index if and only if its read succeeds, its size is between
1 and 1,048,576 bytes inclusive, it is not detected as binary, and the filter
construction on its key array succeeds. In particular a file of 1,048,577 bytes
yields none, and a non-binary file of exactly 1,048,576 bytes whose filter is
built yields one. -/
theorem repoIndexes_admission (fs : FileSystem) (isBinary : List UInt8 → Bool)
    (populateBinaryFuse8 : List Nat → Except String BinaryFuse8)
    (rangeMap : List Nat → List Nat) (hrange : ∀ m, (rangeMap m).Perm m)
    (filenames : List String) (filename : String) (hmem : filename ∈ filenames) :
    ∃ blobs, repoIndexes fs isBinary populateBinaryFuse8 rangeMap filenames = some blobs ∧
      ((∃ blob ∈ blobs, blob.Path = filename) ↔
        ∃ textBytes, fs.ReadRelativeFilename filename = .ok textBytes ∧
          1 ≤ textBytes.length ∧ textBytes.length ≤ 1048576 ∧ isBinary textBytes = false ∧
          ∃ keys filter, fileKeys rangeMap (runes textBytes) = some keys ∧
            populateBinaryFuse8 keys = .ok filter) ∧
      (∀ textBytes, fs.ReadRelativeFilename filename = .ok textBytes →
        textBytes.length = 1048577 → ¬ ∃ blob ∈ blobs, blob.Path = filename) ∧
      (∀ textBytes keys filter, fs.ReadRelativeFilename filename = .ok textBytes →
        textBytes.length = 1048576 → isBinary textBytes = false →
        fileKeys rangeMap (runes textBytes) = some keys →
        populateBinaryFuse8 keys = .ok filter → ∃ blob ∈ blobs, blob.Path = filename) := by
  have hiff : (∃ blob ∈ filenames.filterMap
        (fun f => (indexFile fs isBinary populateBinaryFuse8 rangeMap f).join),
        blob.Path = filename) ↔
      ∃ textBytes, fs.ReadRelativeFilename filename = .ok textBytes ∧
        1 ≤ textBytes.length ∧ textBytes.length ≤ 1048576 ∧ isBinary textBytes = false ∧
        ∃ keys filter, fileKeys rangeMap (runes textBytes) = some keys ∧
          populateBinaryFuse8 keys = .ok filter := by
    rw [exists_blob_path_iff fs isBinary populateBinaryFuse8 rangeMap filenames filename hmem]
    constructor
    · rintro ⟨blob, hb⟩
      obtain ⟨textBytes, h1, h2, h3, h4, keys, filter, h5, h6, _⟩ :=
        (indexFile_eq_some_iff fs isBinary populateBinaryFuse8 rangeMap filename blob).1 hb
      exact ⟨textBytes, h1, h2, h3, h4, keys, filter, h5, h6⟩
    · rintro ⟨textBytes, h1, h2, h3, h4, keys, filter, h5, h6⟩
      exact ⟨_, (indexFile_eq_some_iff fs isBinary populateBinaryFuse8 rangeMap filename _).2
        ⟨textBytes, h1, h2, h3, h4, keys, filter, h5, h6, rfl⟩⟩
  refine ⟨_, repoIndexes_eq fs isBinary populateBinaryFuse8 hrange filenames, hiff, ?_, ?_⟩
  · intro textBytes hread hlen hex
    obtain ⟨textBytes', hread', _, hle, _⟩ := hiff.1 hex
    rw [hread] at hread'
    cases hread'
    omega
  · intro textBytes keys filter hread hlen hbin hk hp
    exact hiff.2 ⟨textBytes, hread, by omega, by omega, hbin, keys, filter, hk, hp⟩

/-- Witness of C19: a listing of a text file and a file with a NUL byte. -/
theorem repoIndexes_admission_witness :
    (∀ m : List Nat, (id m).Perm m) ∧ "a.txt" ∈ ["a.txt", "b.bin"] ∧
    ∃ blobs, repoIndexes (memFS [("a.txt", asciiBytes "hello"), ("b.bin", [0, 1])]) hasNul
        exactFilter id ["a.txt", "b.bin"] = some blobs ∧
      ((∃ blob ∈ blobs, blob.Path = "a.txt") ↔
        ∃ textBytes,
          (memFS [("a.txt", asciiBytes "hello"), ("b.bin", [0, 1])]).ReadRelativeFilename "a.txt"
            = .ok textBytes ∧
          1 ≤ textBytes.length ∧ textBytes.length ≤ 1048576 ∧ hasNul textBytes = false ∧
          ∃ keys filter, fileKeys id (runes textBytes) = some keys ∧
            exactFilter keys = .ok filter) ∧
      (∀ textBytes,
        (memFS [("a.txt", asciiBytes "hello"), ("b.bin", [0, 1])]).ReadRelativeFilename "a.txt"
          = .ok textBytes →
        textBytes.length = 1048577 → ¬ ∃ blob ∈ blobs, blob.Path = "a.txt") ∧
      (∀ textBytes keys filter,
        (memFS [("a.txt", asciiBytes "hello"), ("b.bin", [0, 1])]).ReadRelativeFilename "a.txt"
          = .ok textBytes →
        textBytes.length = 1048576 → hasNul textBytes = false →
        fileKeys id (runes textBytes) = some keys →
        exactFilter keys = .ok filter → ∃ blob ∈ blobs, blob.Path = "a.txt") :=
  ⟨fun m => List.Perm.refl m, by decide,
    repoIndexes_admission (memFS [("a.txt", asciiBytes "hello"), ("b.bin", [0, 1])]) hasNul
      exactFilter id (fun m => List.Perm.refl m) ["a.txt", "b.bin"] "a.txt" (by decide)⟩

theorem indexFile_congr (fs fs' : FileSystem) (isBinary : List UInt8 → Bool)
    (populateBinaryFuse8 : List Nat → Except String BinaryFuse8)
    (rangeMap : List Nat → List Nat)
    (hread : fs'.ReadRelativeFilename = fs.ReadRelativeFilename) (filename : String) :
    indexFile fs' isBinary populateBinaryFuse8 rangeMap filename
      = indexFile fs isBinary populateBinaryFuse8 rangeMap filename := by
  unfold indexFile
  rw [hread]

/-- A file whose read fails, or whose filter construction fails, sends nothing. -/
theorem indexFile_of_failure (fs : FileSystem) (isBinary : List UInt8 → Bool)
    (populateBinaryFuse8 : List Nat → Except String BinaryFuse8)
    (rangeMap : List Nat → List Nat) (f : String)
    (hfail : (∃ e, fs.ReadRelativeFilename f = .error e) ∨
      (∃ textBytes keys e, fs.ReadRelativeFilename f = .ok textBytes ∧
        fileKeys rangeMap (runes textBytes) = some keys ∧
        populateBinaryFuse8 keys = .error e)) :
    indexFile fs isBinary populateBinaryFuse8 rangeMap f = some none := by
  unfold indexFile
  rcases hfail with ⟨e, he⟩ | ⟨textBytes, keys, e, hr, hk, hp⟩
  · rw [he]
  · rw [hr]
    simp only []
    split
    · rfl
    · split
      · rfl
      · split
        · rfl
        · rw [hk]
          simp only []
          rw [hp]

/-- C20. Per-file failures are isolated: when reading a file of the listing fails,
or constructing its filter fails, `NewInMemoryRepoIndex` still returns an index
and a nil error, the index holds no blob for that file, and its blobs are, as a
multiset, those of the index built from the listing without that file. -/
theorem newInMemoryRepoIndex_failure_isolated (fs fs' : FileSystem)
    (isBinary : List UInt8 → Bool)
    (populateBinaryFuse8 : List Nat → Except String BinaryFuse8)
    (rangeMap : List Nat → List Nat) (hrange : ∀ m, (rangeMap m).Perm m)
    (pre suf : List String) (f : String)
    (hlist : fs.ListRelativeFilenames = .ok (pre ++ f :: suf))
    (hlist' : fs'.ListRelativeFilenames = .ok (pre ++ suf))
    (hread : fs'.ReadRelativeFilename = fs.ReadRelativeFilename)
    (hfail : (∃ e, fs.ReadRelativeFilename f = .error e) ∨
      (∃ textBytes keys e, fs.ReadRelativeFilename f = .ok textBytes ∧
        fileKeys rangeMap (runes textBytes) = some keys ∧
        populateBinaryFuse8 keys = .error e)) :
    ∃ r r', NewInMemoryRepoIndex fs isBinary populateBinaryFuse8 rangeMap = some (.ok r) ∧
      NewInMemoryRepoIndex fs' isBinary populateBinaryFuse8 rangeMap = some (.ok r') ∧
      (∀ blob ∈ r.Blobs, blob.Path ≠ f) ∧ r.Blobs.Perm r'.Blobs := by
  have hnone := indexFile_of_failure fs isBinary populateBinaryFuse8 rangeMap f hfail
  have hfun : (fun g => (indexFile fs' isBinary populateBinaryFuse8 rangeMap g).join)
      = (fun g => (indexFile fs isBinary populateBinaryFuse8 rangeMap g).join) := by
    funext g
    rw [indexFile_congr fs fs' isBinary populateBinaryFuse8 rangeMap hread g]
  have h1 : NewInMemoryRepoIndex fs isBinary populateBinaryFuse8 rangeMap
      = some (.ok { Dir := "", FS := fs, Blobs := (List.filterMap
          (fun g => (indexFile fs isBinary populateBinaryFuse8 rangeMap g).join)
          (pre ++ f :: suf)) }) := by
    unfold NewInMemoryRepoIndex
    rw [hlist]
    simp only []
    rw [repoIndexes_eq fs isBinary populateBinaryFuse8 hrange]
  have h2 : NewInMemoryRepoIndex fs' isBinary populateBinaryFuse8 rangeMap
      = some (.ok { Dir := "", FS := fs', Blobs := (List.filterMap
          (fun g => (indexFile fs' isBinary populateBinaryFuse8 rangeMap g).join)
          (pre ++ suf)) }) := by
    unfold NewInMemoryRepoIndex
    rw [hlist']
    simp only []
    rw [repoIndexes_eq fs' isBinary populateBinaryFuse8 hrange]
  refine ⟨_, _, h1, h2, ?_, ?_⟩
  · intro blob hb hp
    obtain ⟨g, _, hg⟩ := List.mem_filterMap.1 hb
    rw [Option.join_eq_some] at hg
    obtain ⟨_, _, _, _, _, _, _, _, _, hblob⟩ :=
      (indexFile_eq_some_iff fs isBinary populateBinaryFuse8 rangeMap g blob).1 hg
    have hgf : g = f := by rw [← hp, hblob]
    rw [hgf, hnone] at hg
    cases hg
  · show (List.filterMap _ (pre ++ f :: suf)).Perm (List.filterMap _ (pre ++ suf))
    rw [hfun, List.filterMap_append, List.filterMap_append,
      List.filterMap_cons_none (by rw [hnone]; rfl)]

/-- Witness of C20: a listing of three files, the second of which cannot be
read. -/
theorem newInMemoryRepoIndex_failure_isolated_witness :
    (∀ m : List Nat, (id m).Perm m) ∧
    fsWithGone.ListRelativeFilenames = .ok (["a.txt"] ++ "gone.txt" :: ["b.txt"]) ∧
    fsWithoutGone.ListRelativeFilenames = .ok (["a.txt"] ++ ["b.txt"]) ∧
    fsWithoutGone.ReadRelativeFilename = fsWithGone.ReadRelativeFilename ∧
    ((∃ e, fsWithGone.ReadRelativeFilename "gone.txt" = .error e) ∨
      (∃ textBytes keys e, fsWithGone.ReadRelativeFilename "gone.txt" = .ok textBytes ∧
        fileKeys id (runes textBytes) = some keys ∧ exactFilter keys = .error e)) ∧
    ∃ r r', NewInMemoryRepoIndex fsWithGone hasNul exactFilter id = some (.ok r) ∧
      NewInMemoryRepoIndex fsWithoutGone hasNul exactFilter id = some (.ok r') ∧
      (∀ blob ∈ r.Blobs, blob.Path ≠ "gone.txt") ∧ r.Blobs.Perm r'.Blobs :=
  ⟨fun m => List.Perm.refl m, rfl, rfl, rfl, Or.inl ⟨"no such file", rfl⟩,
    newInMemoryRepoIndex_failure_isolated fsWithGone fsWithoutGone hasNul exactFilter id
      (fun m => List.Perm.refl m) ["a.txt"] ["b.txt"] "gone.txt" rfl rfl rfl
      (Or.inl ⟨"no such file", rfl⟩)⟩

/-! ## Routing between the two storages -/

theorem denseOK_route {ub : Bool} {s : GramState} (x : Nat) (h : DenseOK s.seenAscii) :
    DenseOK (route ub x s).seenAscii := by
  unfold route
  split
  · rename_i hc
    have hx : x < smallTrigram := by
      cases ub
      · simp at hc
      · simpa using hc
    intro d hd v hv
    cases hs : s.seenAscii with
    | none => simp [hs] at hd
    | some d0 =>
      simp only [hs, Option.map_some', Option.some.injEq] at hd
      subst hd
      rcases mem_bitSet_set.1 hv with hv | hv
      · exact hv ▸ hx
      · exact h d0 hs v hv
  · exact h

theorem denseOK_step {ub : Bool} {s : GramState} (c : Char) (h : DenseOK s.seenAscii) :
    DenseOK (onGramsStep ub s c).seenAscii := by
  unfold onGramsStep
  simp only []
  have h1 := @denseOK_route ub s c.toNat h
  generalize route ub c.toNat s = t1 at h1 ⊢
  have h2 : DenseOK
      (if t1.i > 1 then route ub (bigramOf c.toNat t1.ch1) t1 else t1).seenAscii := by
    split
    · exact denseOK_route _ h1
    · exact h1
  generalize (if t1.i > 1 then route ub (bigramOf c.toNat t1.ch1) t1 else t1) = t2 at h2 ⊢
  show DenseOK
    (if t2.i > 2 then route ub (trigramOf c.toNat t2.ch1 t2.ch2) t2 else t2).seenAscii
  split
  · exact denseOK_route _ h2
  · exact h2

theorem denseOK_foldl (ub : Bool) :
    ∀ (text : List Char) (s : GramState), DenseOK s.seenAscii →
      DenseOK (text.foldl (onGramsStep ub) s).seenAscii
  | [], _, h => h
  | c :: rest, s, h => by
    rw [List.foldl_cons]
    exact denseOK_foldl ub rest _ (denseOK_step c h)

theorem denseOK_onGrams (text : List Char) (ub : Bool) : DenseOK (onGrams text ub).2 := by
  unfold onGrams onGramsLoop
  apply denseOK_foldl
  intro d hd v hv
  cases ub
  · simp [onGramsInit] at hd
  · simp only [onGramsInit, if_true, Option.some.injEq] at hd
    subst hd
    exact absurd hv (List.not_mem_nil v)

/-- With the dense bitset in use, membership in each storage is decided by the
value of the n-gram. -/
theorem storage_split (text : List Char) :
    ∃ dense, (onGrams text true).2 = some dense ∧
      (∀ v, v ∈ dense ↔ RefNgram text v ∧ v < smallTrigram) ∧
      (∀ v, v ∈ (onGrams text true).1 ↔ RefNgram text v ∧ smallTrigram ≤ v) := by
  obtain ⟨d, hd⟩ := onGrams_true_snd text
  have hu : ∀ v, (v ∈ (onGrams text true).1 ∨ v ∈ d) ↔ RefNgram text v := by
    intro v
    rw [← mem_ngramUnion_onGrams text true v]
    unfold ngramUnion
    rw [hd]
    simp
  have hdense : ∀ v ∈ d, v < smallTrigram := denseOK_onGrams text true d hd
  have hsparse : ∀ v ∈ (onGrams text true).1, smallTrigram ≤ v :=
    (seenOK_onGrams text true).2 rfl
  refine ⟨d, hd, fun v => ⟨fun h => ⟨(hu v).1 (Or.inr h), hdense v h⟩, ?_⟩,
    fun v => ⟨fun h => ⟨(hu v).1 (Or.inl h), hsparse v h⟩, ?_⟩⟩
  · rintro ⟨hr, hlt⟩
    rcases (hu v).2 hr with h | h
    · have := hsparse v h
      omega
    · exact h
  · rintro ⟨hr, hge⟩
    rcases (hu v).2 hr with h | h
    · exact h
    · have := hdense v h
      omega

/-! ## Arity decoding and the top two bits -/

theorem trigramArity_eq : trigramArity = 3 <<< 62 := by decide

theorem bigramArity_eq : bigramArity = 2 ^ 63 := by decide

theorem testBit_three {k : Nat} (h : Nat.testBit 3 k = true) : k ≤ 1 := by
  by_contra hk
  have hlt : 3 < 2 ^ k := by
    have : 2 ^ 2 ≤ 2 ^ k := Nat.pow_le_pow_right (by norm_num) (by omega)
    omega
  rw [Nat.testBit_lt_two_pow hlt] at h
  exact absurd h (by simp)

theorem and_trigramArity_iff (n : Nat) :
    trigramArity &&& n = trigramArity ↔ n.testBit 63 = true ∧ n.testBit 62 = true := by
  rw [trigramArity_eq]
  constructor
  · intro h
    have h63 := congrArg (fun x => Nat.testBit x 63) h
    have h62 := congrArg (fun x => Nat.testBit x 62) h
    simp only [Nat.testBit_and] at h63 h62
    have t63 : Nat.testBit (3 <<< 62) 63 = true := by decide
    have t62 : Nat.testBit (3 <<< 62) 62 = true := by decide
    rw [t63] at h63
    rw [t62] at h62
    exact ⟨by simpa using h63, by simpa using h62⟩
  · rintro ⟨h63, h62⟩
    apply Nat.eq_of_testBit_eq
    intro i
    rw [Nat.testBit_and]
    cases hT : Nat.testBit (3 <<< 62) i with
    | false => rfl
    | true =>
      rw [Nat.testBit_shiftLeft] at hT
      simp only [Bool.and_eq_true, decide_eq_true_eq] at hT
      have hk := testBit_three hT.2
      have hi : i = 62 ∨ i = 63 := by omega
      rcases hi with rfl | rfl
      · simpa using h62
      · simpa using h63

theorem and_bigramArity_iff (n : Nat) :
    bigramArity &&& n = bigramArity ↔ n.testBit 63 = true := by
  rw [bigramArity_eq]
  constructor
  · intro h
    have h63 := congrArg (fun x => Nat.testBit x 63) h
    simp only [Nat.testBit_and, Nat.testBit_two_pow] at h63
    simpa using h63
  · intro h63
    apply Nat.eq_of_testBit_eq
    intro i
    rw [Nat.testBit_and, Nat.testBit_two_pow]
    by_cases hi : 63 = i
    · subst hi
      simp [h63]
    · simp [hi]

/-! ## Theorems about the storages and the arity decoder -/

/-- C24. Storage routing invariant: for every text, with `useBitset = true` the
dense bitset holds exactly the extracted n-grams whose value is below 2,097,152
and the sparse set holds exactly those whose value is at least 2,097,152, so no
n-gram is a member of both storages. -/
theorem onGrams_routing (text : List Char) :
    ∃ dense, (onGrams text true).2 = some dense ∧
      (∀ v, v ∈ dense ↔ RefNgram text v ∧ v < 2097152) ∧
      (∀ v, v ∈ (onGrams text true).1 ↔ RefNgram text v ∧ 2097152 ≤ v) ∧
      (∀ v, ¬ (v ∈ dense ∧ v ∈ (onGrams text true).1)) := by
  obtain ⟨d, hd, h1, h2⟩ := storage_split text
  have hs : smallTrigram = 2097152 := by decide
  rw [hs] at h1 h2
  refine ⟨d, hd, h1, h2, fun v hv => ?_⟩
  have := ((h1 v).1 hv.1).2
  have := ((h2 v).1 hv.2).2
  omega

/-- C25. For every text whose codepoints are all ASCII (below 128), every
unigram, bigram and trigram value built by `onGrams` is below 2,097,152, so
`onGrams(text, true)` returns an empty sparse set and all n-grams are in the
dense bitset. -/
theorem onGrams_ascii (text : List Char) (hascii : ∀ c ∈ text, c.toNat < 128) :
    (∀ v, RefNgram text v → v < 2097152) ∧
    (onGrams text true).1 = [] ∧
    ∃ dense, (onGrams text true).2 = some dense ∧ ∀ v, v ∈ dense ↔ RefNgram text v := by
  have hcp : ∀ i, i < text.length → cp text i < 2 ^ 7 := by
    intro i hi
    unfold cp
    rw [List.getD_eq_getElem _ _ hi]
    exact hascii _ (List.getElem_mem hi)
  have hlt : ∀ v, RefNgram text v → v < 2097152 := by
    intro v hv
    have e : (2097152 : Nat) = 2 ^ 21 := by norm_num
    rw [e]
    have s7 : ∀ x, x < 2 ^ 7 → x <<< 7 < 2 ^ 21 := by
      intro x hx; rw [Nat.shiftLeft_eq]; omega
    have s14 : ∀ x, x < 2 ^ 7 → x <<< 14 < 2 ^ 21 := by
      intro x hx; rw [Nat.shiftLeft_eq]; omega
    have up : ∀ x, x < 2 ^ 7 → x < 2 ^ 21 := by
      intro x hx; omega
    rcases hv with ⟨i, hi, rfl⟩ | ⟨i, h2, hi, rfl⟩ | ⟨i, h3, hi, rfl⟩
    · exact up _ (hcp i hi)
    · exact Nat.or_lt_two_pow (up _ (hcp i hi)) (s7 _ (hcp (i - 1) (by omega)))
    · exact Nat.or_lt_two_pow
        (Nat.or_lt_two_pow (up _ (hcp i hi)) (s7 _ (hcp (i - 1) (by omega))))
        (s14 _ (hcp (i - 2) (by omega)))
  obtain ⟨d, hd, h1, h2⟩ := storage_split text
  have hs : smallTrigram = 2097152 := by decide
  refine ⟨hlt, ?_, d, hd, fun v => ⟨fun h => ((h1 v).1 h).1, fun h => (h1 v).2 ⟨h, ?_⟩⟩⟩
  · apply List.eq_nil_iff_forall_not_mem.2
    intro v hv
    obtain ⟨hr, hge⟩ := (h2 v).1 hv
    have := hlt v hr
    omega
  · rw [hs]
    exact hlt v h

/-- Witness of C25: the text `hello world`. -/
theorem onGrams_ascii_witness :
    (∀ c ∈ "hello world".toList, c.toNat < 128) ∧
    (∀ v, RefNgram "hello world".toList v → v < 2097152) ∧
    (onGrams "hello world".toList true).1 = [] ∧
    ∃ dense, (onGrams "hello world".toList true).2 = some dense ∧
      ∀ v, v ∈ dense ↔ RefNgram "hello world".toList v :=
  ⟨by decide, onGrams_ascii "hello world".toList (by decide)⟩

/-- C26. Arity decoding depends only on the top two bits: for every `n`,
`ngramArity(n) = 3` iff bits 63 and 62 are both set, `ngramArity(n) = 2` iff bit 63
is set and bit 62 is clear, and `ngramArity(n) = 1` otherwise (bit 63 clear); the
result is always 1, 2 or 3. -/
theorem ngramArity_top_bits (n : Nat) :
    (ngramArity n = 3 ↔ n.testBit 63 = true ∧ n.testBit 62 = true) ∧
    (ngramArity n = 2 ↔ n.testBit 63 = true ∧ n.testBit 62 = false) ∧
    (ngramArity n = 1 ↔ n.testBit 63 = false) ∧
    (ngramArity n = 1 ∨ ngramArity n = 2 ∨ ngramArity n = 3) := by
  unfold ngramArity
  simp only [and_trigramArity_iff, and_bigramArity_iff]
  cases h63 : n.testBit 63 <;> cases h62 : n.testBit 62 <;> simp

/-! ## Counting what is sent on the channels -/

/-- The batches cut by `PathsMatchingQuery` are the blobs, in order, and nothing
else: the bound on the number of iterations is enough. -/
theorem blobBatches_flatten {batchSize : Nat} (hpos : 0 < batchSize) (blobs : List BlobIndex) :
    ∀ (fuel i : Nat), blobs.length - i ≤ fuel →
      (blobBatches batchSize blobs fuel i).flatten = blobs.drop i
  | 0, i, h => by
    have hi : blobs.length ≤ i := by omega
    rw [List.drop_eq_nil_of_le hi]
    rfl
  | fuel + 1, i, h => by
    unfold blobBatches
    by_cases hi : i < blobs.length
    · rw [if_pos hi]
      simp only [List.flatten_cons]
      rw [blobBatches_flatten hpos blobs fuel (i + batchSize) (by omega)]
      by_cases hj : i + batchSize > blobs.length
      · rw [if_pos hj, List.drop_eq_nil_of_le (Nat.le_of_lt hj), List.append_nil]
        apply List.take_of_length_le
        rw [List.length_drop]
      · rw [if_neg hj, Nat.add_sub_cancel_left, ← List.drop_drop, List.take_append_drop]
    · rw [if_neg hi, List.drop_eq_nil_of_le (Nat.le_of_not_lt hi)]
      rfl

theorem length_pathsMatchingQuerySync_le (grams : List Nat) :
    ∀ batch : List BlobIndex, (pathsMatchingQuerySync grams batch).length ≤ batch.length
  | [] => Nat.le_refl 0
  | index :: rest => by
    have ih := length_pathsMatchingQuerySync_le grams rest
    unfold pathsMatchingQuerySync
    cases index.Filter with
    | none =>
      simp only [List.length_cons]
      omega
    | some filter =>
      simp only []
      split
      · simp only [List.length_cons]
        omega
      · simp only [List.length_cons]
        omega

theorem length_flatten_map_le {α β : Type} (f : List α → List β)
    (hf : ∀ l, (f l).length ≤ l.length) :
    ∀ ls : List (List α), (ls.map f).flatten.length ≤ ls.flatten.length
  | [] => Nat.le_refl 0
  | l :: rest => by
    have ih := length_flatten_map_le f hf rest
    have hl := hf l
    simp only [List.map_cons, List.flatten_cons, List.length_append]
    omega

/-! ## Theorems about the channels, the receiver of `ReadFrom` and the query list -/

/-- C27. Result channels never overflow: `repoIndexes` sends at most one blob
index per filename, so the number of blob indexes it sends is at most
`len(filenames)`, the capacity of its channel; `PathsMatchingQuery` sends at most
one path per blob, so the number of paths it sends is at most `len(r.Blobs)`, the
capacity of its channel. -/
theorem channels_never_overflow (fs : FileSystem) (isBinary : List UInt8 → Bool)
    (populateBinaryFuse8 : List Nat → Except String BinaryFuse8)
    (rangeMap : List Nat → List Nat) (randInt : Nat → Nat)
    (sortSliceStable : (Nat → Nat → Bool) → List Nat → List Nat)
    (schedule : List (List String) → List String)
    (hrange : ∀ m, (rangeMap m).Perm m)
    (hsched : ∀ outs, (schedule outs).Perm outs.flatten)
    (filenames : List String) (r : RepoIndex) (query : List Char) :
    (∃ blobs, repoIndexes fs isBinary populateBinaryFuse8 rangeMap filenames = some blobs ∧
      blobs.length ≤ filenames.length) ∧
    (PathsMatchingQuery rangeMap randInt sortSliceStable schedule r query).length
      ≤ r.Blobs.length := by
  constructor
  · exact ⟨_, repoIndexes_eq fs isBinary populateBinaryFuse8 hrange filenames,
      List.length_filterMap_le _ _⟩
  · unfold PathsMatchingQuery
    simp only []
    rw [(hsched _).length_eq]
    refine le_trans (length_flatten_map_le _ (length_pathsMatchingQuerySync_le _) _) ?_
    rw [blobBatches_flatten (by norm_num) r.Blobs r.Blobs.length 0 (by omega)]
    simp

/-- Witness of C27: two files, one of them binary, and an index of two blobs
queried in parallel. -/
theorem channels_never_overflow_witness :
    (∀ m : List Nat, (id m).Perm m) ∧
    (∀ outs : List (List String), (List.flatten outs).Perm outs.flatten) ∧
    (∃ blobs, repoIndexes (memFS [("a.txt", asciiBytes "hello"), ("b.bin", [0, 1])]) hasNul
        exactFilter id ["a.txt", "b.bin"] = some blobs ∧
      blobs.length ≤ ["a.txt", "b.bin"].length) ∧
    (PathsMatchingQuery id (fun k => k) insertionSortLessSwap List.flatten
        { Dir := "", FS := memFS [],
          Blobs := [{ Filter := some { Contains := fun _ => true }, Path := "a.txt" },
                    { Filter := none, Path := "b.txt" }] }
        "a".toList).length
      ≤ [({ Filter := some { Contains := fun _ => true }, Path := "a.txt" } : BlobIndex),
          { Filter := none, Path := "b.txt" }].length :=
  ⟨fun m => List.Perm.refl m, fun _ => List.Perm.refl _,
    channels_never_overflow (memFS [("a.txt", asciiBytes "hello"), ("b.bin", [0, 1])]) hasNul
      exactFilter id (fun k => k) insertionSortLessSwap List.flatten
      (fun m => List.Perm.refl m) (fun _ => List.Perm.refl _) ["a.txt", "b.bin"]
      { Dir := "", FS := memFS [],
        Blobs := [{ Filter := some { Contains := fun _ => true }, Path := "a.txt" },
                  { Filter := none, Path := "b.txt" }] }
      "a".toList⟩

/-- C28. `ReadFrom` is atomic on failure: whenever `ReadFrom` returns a non-nil
error (header read failure, `Read` error, short payload or payload decode
failure), the receiver has the `Path` and the `Filter` it had before the call. -/
theorem readFrom_error_keeps_receiver (gobDecode : List UInt8 → Except String BlobIndex)
    (recv : BlobIndex) (stream : Reader) (res : ReadFromResult)
    (h : ReadFrom gobDecode recv stream = some res) (herr : res.err ≠ none) :
    res.b.Path = recv.Path ∧ res.b.Filter = recv.Filter := by
  unfold ReadFrom at h
  split at h
  · cases h
    exact ⟨rfl, rfl⟩
  · split at h
    · cases h
    · simp only [] at h
      split at h
      · cases h
        exact ⟨rfl, rfl⟩
      · split at h
        · cases h
          exact ⟨rfl, rfl⟩
        · split at h
          · cases h
            exact ⟨rfl, rfl⟩
          · cases h
            exact absurd rfl herr

/-- Witness of C28: a stream of three bytes, too short for a header, read into a
receiver that holds the path `old.txt`. -/
theorem readFrom_error_keeps_receiver_witness :
    ReadFrom pathDecode { Filter := none, Path := "old.txt" } (sliceReader [0, 0, 1])
      = some { n := 0, err := some "unexpected EOF", b := { Filter := none, Path := "old.txt" },
               stream := { sliceReader [0, 0, 1] with pending := [] } } ∧
    (some "unexpected EOF" : Option String) ≠ none ∧
    ("old.txt" = "old.txt" ∧ (none : Option BinaryFuse8) = none) :=
  ⟨rfl, by decide,
    readFrom_error_keeps_receiver pathDecode { Filter := none, Path := "old.txt" }
      (sliceReader [0, 0, 1])
      { n := 0, err := some "unexpected EOF", b := { Filter := none, Path := "old.txt" },
        stream := { sliceReader [0, 0, 1] with pending := [] } } rfl (by decide)⟩

/-- C29. For every query, every map iteration order, every outcome of the random
numbers and every sort that only permutes its slice, the list returned by
`CollectQueryNgrams` has no duplicate element, every element of it is a key of the
map returned by `onGrams(query, false)`, and it is the first 100 elements of a
permutation of those keys. -/
theorem collectQueryNgrams_nodup_subset
    (rangeMap : List Nat → List Nat) (randInt : Nat → Nat)
    (sortSliceStable : (Nat → Nat → Bool) → List Nat → List Nat)
    (hrange : ∀ m, (rangeMap m).Perm m)
    (hsort : ∀ less xs, (sortSliceStable less xs).Perm xs) (query : List Char) :
    (CollectQueryNgrams rangeMap randInt sortSliceStable query).Nodup ∧
    CollectQueryNgrams rangeMap randInt sortSliceStable query ⊆ (onGrams query false).1 ∧
    ∃ l : List Nat, l.Perm (onGrams query false).1 ∧
      CollectQueryNgrams rangeMap randInt sortSliceStable query = l.take 100 := by
  obtain ⟨l, hl, he⟩ := collectQueryNgrams_eq_take randInt hrange hsort query
  refine ⟨?_, mem_of_mem_collectQueryNgrams randInt hrange hsort query, l, hl, he⟩
  rw [he]
  exact List.Nodup.sublist (List.take_sublist _ _)
    (hl.symm.nodup (seenOK_onGrams query false).1)

/-- Witness of C29: the query `hello world`, with the map visited in reverse
insertion order and the swap-based insertion sort. -/
theorem collectQueryNgrams_nodup_subset_witness :
    (∀ m : List Nat, (List.reverse m).Perm m) ∧
    (∀ less xs, (insertionSortLessSwap less xs).Perm xs) ∧
    (CollectQueryNgrams List.reverse (fun k => (7 * k + 3) % 5) insertionSortLessSwap
      "hello world".toList).Nodup ∧
    CollectQueryNgrams List.reverse (fun k => (7 * k + 3) % 5) insertionSortLessSwap
      "hello world".toList ⊆ (onGrams "hello world".toList false).1 ∧
    ∃ l : List Nat, l.Perm (onGrams "hello world".toList false).1 ∧
      CollectQueryNgrams List.reverse (fun k => (7 * k + 3) % 5) insertionSortLessSwap
        "hello world".toList = l.take 100 :=
  ⟨List.reverse_perm, insertionSortLessSwap_perm,
    collectQueryNgrams_nodup_subset List.reverse (fun k => (7 * k + 3) % 5)
      insertionSortLessSwap List.reverse_perm insertionSortLessSwap_perm "hello world".toList⟩

/-! ## Theorems about persistence -/

/-- C21, counterexample. A regular file with contents `[1, 2, 3]` exists at the
output path. When `os.Create` of the target fails, `NewOnDiskRepoIndex` returns
the error and nothing is left at the output path; when `io.Copy` fails after 4
bytes, it returns the error and the target holds those 4 bytes of the 13 of the
index. -/
theorem newOnDiskRepoIndex_loses_target :
    NewOnDiskRepoIndex (memFS [("a.txt", asciiBytes "hi")]) hasNul exactFilter
        id pathEncode { allSucceed with create := some "too many open files" }
        (.file [1, 2, 3])
      = some (some "too many open files", .absent) ∧
    NewOnDiskRepoIndex (memFS [("a.txt", asciiBytes "hi")]) hasNul exactFilter
        id pathEncode { allSucceed with copy := some (4, "no space left on device") }
        (.file [1, 2, 3])
      = some (some "no space left on device", .file [0, 0, 0, 0]) ∧
    NewOnDiskRepoIndex (memFS [("a.txt", asciiBytes "hi")]) hasNul exactFilter
        id pathEncode allSucceed (.file [1, 2, 3])
      = some (none, .file [0, 0, 0, 0, 0, 0, 0, 5, 97, 46, 116, 120, 116]) := by
  decide

/-- C21, amended. Whenever `NewOnDiskRepoIndex` returns an error and creating
the target, reopening the temporary file and copying do not fail (the error then
arises before the output path is removed, or in the removal itself), a regular
file that already existed at the output path still has its previous contents;
and whenever it returns nil, the target holds exactly the bytes that were written
to the temporary file. -/
theorem newOnDiskRepoIndex_target (fs : FileSystem) (isBinary : List UInt8 → Bool)
    (populateBinaryFuse8 : List Nat → Except String BinaryFuse8)
    (rangeMap : List Nat → List Nat)
    (gobEncode : BlobIndex → List UInt8 × Option String)
    (os : DiskOutcomes) (old : List UInt8) (res : Option String × Node)
    (hcreate : os.create = none) (hopen : os.openTemp = none) (hcopy : os.copy = none)
    (h : NewOnDiskRepoIndex fs isBinary populateBinaryFuse8 rangeMap gobEncode os (.file old)
      = some res) :
    (res.1 ≠ none → res.2 = .file old) ∧
    (res.1 = none → ∃ filenames indexes, fs.ListRelativeFilenames = .ok filenames ∧
      repoIndexes fs isBinary populateBinaryFuse8 rangeMap filenames = some indexes ∧
      res.2 = .file
        (writeFrames gobEncode indexes { written := [], accept := os.tempAccept }).2.written) := by
  unfold NewOnDiskRepoIndex at h
  cases hct : os.createTemp with
  | some e =>
    simp only [hct, Option.some.injEq] at h
    subst h
    exact ⟨fun _ => rfl, fun hn => by simp at hn⟩
  | none =>
    cases hl : fs.ListRelativeFilenames with
    | error e =>
      simp only [hct, hl, Option.some.injEq] at h
      subst h
      exact ⟨fun _ => rfl, fun hn => by simp at hn⟩
    | ok filenames =>
      cases hr : repoIndexes fs isBinary populateBinaryFuse8 rangeMap filenames with
      | none => simp [hct, hl, hr] at h
      | some indexes =>
        simp only [hct, hl, hr] at h
        cases hw : (writeFrames gobEncode indexes
            { written := [], accept := os.tempAccept }).1 with
        | some e =>
          simp only [hw, Option.some.injEq] at h
          subst h
          exact ⟨fun _ => rfl, fun hn => by simp at hn⟩
        | none =>
          cases hcl : os.closeTemp with
          | some e =>
            simp only [hw, hcl, Option.some.injEq] at h
            subst h
            exact ⟨fun _ => rfl, fun hn => by simp at hn⟩
          | none =>
            cases hrm : os.remove with
            | some e =>
              simp only [hw, hcl, hrm, Option.some.injEq] at h
              subst h
              exact ⟨fun _ => rfl, fun hn => by simp at hn⟩
            | none =>
              simp only [hw, hcl, hrm, hcreate, hopen, hcopy, Option.some.injEq] at h
              subst h
              exact ⟨fun hn => absurd rfl hn, fun _ => ⟨filenames, indexes, rfl, hr, rfl⟩⟩

/-- Witness of C21 (amended): closing the temporary file fails, and the file
`[1, 2, 3]` at the output path is kept. -/
theorem newOnDiskRepoIndex_target_witness :
    ({ allSucceed with closeTemp := some "input/output error" } : DiskOutcomes).create = none ∧
    ({ allSucceed with closeTemp := some "input/output error" } : DiskOutcomes).openTemp = none ∧
    ({ allSucceed with closeTemp := some "input/output error" } : DiskOutcomes).copy = none ∧
    NewOnDiskRepoIndex (memFS [("a.txt", asciiBytes "hi")]) hasNul exactFilter id pathEncode
        { allSucceed with closeTemp := some "input/output error" } (.file [1, 2, 3])
      = some (some "input/output error", .file [1, 2, 3]) ∧
    ((some "input/output error" : Option String) ≠ none → Node.file [1, 2, 3] = .file [1, 2, 3]) ∧
    ((some "input/output error" : Option String) = none →
      ∃ filenames indexes,
        (memFS [("a.txt", asciiBytes "hi")]).ListRelativeFilenames = .ok filenames ∧
        repoIndexes (memFS [("a.txt", asciiBytes "hi")]) hasNul exactFilter id filenames
          = some indexes ∧
        Node.file [1, 2, 3] = .file
          (writeFrames pathEncode indexes
            { written := [],
              accept := ({ allSucceed with closeTemp := some "input/output error" } :
                DiskOutcomes).tempAccept }).2.written) :=
  ⟨rfl, rfl, rfl, by decide,
    newOnDiskRepoIndex_target (memFS [("a.txt", asciiBytes "hi")]) hasNul exactFilter id
      pathEncode { allSucceed with closeTemp := some "input/output error" } [1, 2, 3]
      (some "input/output error", .file [1, 2, 3]) rfl rfl rfl (by decide)⟩

/-- C22, evaluated. When `MkdirAll` and `Create` succeed, `Serialize` returns an
error and closing the file succeeds, `SerializeToFile` returns nil: the deferred
function replaces the error of `Serialize` by the nil result of `Close`. -/
theorem serializeToFile_drops_error :
    SerializeToFile none none (some "gob: encode failed") none = none := by
  decide

/-- C23, evaluated. `WriteTo` returns nil and the count `8 + L` when the encoder
fails, and also when the writer accepts the 8 header bytes and fails on the
payload, of which nothing is then written. -/
theorem writeTo_drops_errors :
    (failingEncode { Filter := none, Path := "a.txt" }).2 = some "gob: encoding failed" ∧
    (WriteTo failingEncode { Filter := none, Path := "a.txt" } (acceptAll [])).err = none ∧
    (WriteTo failingEncode { Filter := none, Path := "a.txt" } (acceptAll [])).n = 8 ∧
    (({ failAfterHeader with written := [0, 0, 0, 0, 0, 0, 0, 5] } : Writer).Write
        [97, 46, 116, 120, 116]).2.1 = some "write error" ∧
    (WriteTo pathEncode { Filter := none, Path := "a.txt" } failAfterHeader).err = none ∧
    (WriteTo pathEncode { Filter := none, Path := "a.txt" } failAfterHeader).n = 13 ∧
    (WriteTo pathEncode { Filter := none, Path := "a.txt" } failAfterHeader).w.written
      = [0, 0, 0, 0, 0, 0, 0, 5] := by
  decide

/-! ## Theorems about the component authors -/

theorem authorsWorker_allErr_some
    (getBlameAuthorsCached : String → Except String (List (String × BlameAuthor) × Int))
    {st : AuthorsState} (e : DirEntry) (h : st.allErr ≠ none) :
    (authorsWorker getBlameAuthorsCached st e).allErr ≠ none := by
  unfold authorsWorker
  split
  · simp only []
    rw [if_neg h]
    exact h
  · exact h

theorem foldl_authorsWorker_allErr
    (getBlameAuthorsCached : String → Except String (List (String × BlameAuthor) × Int)) :
    ∀ (l : List DirEntry) (st : AuthorsState),
      (st.allErr ≠ none ∨ ∃ e ∈ l, ∃ msg, getBlameAuthorsCached e.Name = .error msg) →
      (l.foldl (authorsWorker getBlameAuthorsCached) st).allErr ≠ none
  | [], st, h => by
    rcases h with h | ⟨e, he, _⟩
    · exact h
    · exact absurd he (List.not_mem_nil e)
  | e :: rest, st, h => by
    rw [List.foldl_cons]
    apply foldl_authorsWorker_allErr getBlameAuthorsCached rest
    rcases h with h | ⟨e', he', msg, hmsg⟩
    · exact Or.inl (authorsWorker_allErr_some getBlameAuthorsCached e h)
    · rcases List.mem_cons.1 he' with rfl | hin
      · left
        unfold authorsWorker
        rw [hmsg]
        simp only []
        split <;> simp_all
      · exact Or.inr ⟨e', hin, msg, hmsg⟩

/-- Whenever the directory is read and the blame of one entry that is not a
directory fails, `Authors` returns a nil slice and a nil error, in whatever order
the goroutines run. -/
theorem authors_nil_error_of_failure (entries : List DirEntry)
    (getBlameAuthorsCached : String → Except String (List (String × BlameAuthor) × Int))
    (arrival : List DirEntry → List DirEntry)
    (rangeAll : List (String × BlameAuthor) → List (String × BlameAuthor))
    (sortSlice : (AuthorEdge → AuthorEdge → Bool) → List AuthorEdge → List AuthorEdge)
    (harr : ∀ l, (arrival l).Perm l)
    (e : DirEntry) (msg : String) (he : e ∈ entries) (hdir : e.IsDir = false)
    (hfail : getBlameAuthorsCached e.Name = .error msg) :
    Authors (.ok entries) getBlameAuthorsCached arrival rangeAll sortSlice = (none, none) := by
  have hmem : e ∈ arrival (entries.filter (fun e => !e.IsDir)) :=
    (harr _).symm.subset (List.mem_filter.2 ⟨he, by simp [hdir]⟩)
  have hst := foldl_authorsWorker_allErr getBlameAuthorsCached _
    { all := [], totalLineCount := 0, allErr := none } (Or.inr ⟨e, hmem, msg, hfail⟩)
  unfold Authors
  simp only []
  rw [if_pos hst]

/-- C30, evaluated. The directory holds the files `a.go` and `b.go`, and computing
the blame authors of `a.go` fails: `Authors` returns a nil slice and a nil error. -/
theorem authors_returns_nil_error :
    blameFailsOn "a.go" "a.go" = .error "blame failed" ∧
    Authors (.ok [{ Name := "a.go", IsDir := false }, { Name := "b.go", IsDir := false }])
        (blameFailsOn "a.go") id id (fun _ xs => xs) = (none, none) ∧
    Authors (.ok [{ Name := "a.go", IsDir := false }, { Name := "b.go", IsDir := false }])
        (blameFailsOn "a.go") List.reverse id (fun _ xs => xs) = (none, none) := by
  refine ⟨rfl, ?_, ?_⟩ <;> decide

end Fileskip
